import Mathlib

/-!
A shallow embedding of the discrete-time multi-core CPU scheduling simulator
(`CSE4300/josh-alex-zach-viraj/dispatch.c`, `sim.c`) and of the standalone
SJF scan (`CSE4300/abhinav-daniel-eric-vin/sjf.c`), together with proofs of
the behavioural properties stated in the design document.

The queue and CPU helper implementations (`q_push`, `q_pop`, the selection
pops, `cpu_bind_core`, `cpu_step`, `block_to_waiting`, `waiting_io_resolve`,
`bump_queue_wait`) are declared in `sim.h` and called from `sim.c` and
`dispatch.c`, but their defining source file is not part of the repository;
those definitions are modelled from the specification (§4.2, §4.3, §4.5,
§4.6).  Everything else is translated directly from the C sources.
Machine `int`s are modelled as `Int` (the simulator works with small,
class-sized values, far from any overflow boundary); the global `SIM_TIME`
is threaded explicitly as state, and the `rand()`-driven interrupt sampling
is injected as an explicit oracle, following the design notes (§9).
-/

namespace SchedSim

/-- Thread lifecycle states, from `sim.h` usage in `sim.c` (`ST_NEW`,
`ST_READY`, `ST_FINISHED`, ...) and §3 of the design. -/
inductive TState where
  | New
  | Ready
  | Running
  | Waiting
  | Finished
deriving DecidableEq

/-- The `Thread` record of the simulator (§3; fields as initialised by
`make_thread` in `sim.c`). -/
structure Thread where
  tid : Int
  arrival_time : Int
  burst_time : Int
  remaining : Int
  state : TState
  unblocked_at : Int
  start_time : Int
  finish_time : Int
  wait_time : Int
deriving DecidableEq

/-- Translation of `make_thread` (`sim.c`): a fresh thread in state `New`,
`remaining` initialised to the burst, sentinel `-1` for the unset
`unblocked_at`, `start_time` and `finish_time`, and zero accumulated wait. -/
def make_thread (tid arrival burst : Int) : Thread :=
  { tid := tid
    arrival_time := arrival
    burst_time := burst
    remaining := burst
    state := TState.New
    unblocked_at := -1
    start_time := -1
    finish_time := -1
    wait_time := 0 }

/-- Modelled from the spec: queue `push` (§4.2), from the queue
implementation missing from the repository sources: append at the tail. -/
def q_push (q : List Thread) (t : Thread) : List Thread := q ++ [t]

/-- Modelled from the spec: queue `pop` (§4.2): remove and return the head,
or a none signal when the queue is empty. -/
def q_pop : List Thread → Option (Thread × List Thread)
  | [] => none
  | t :: rest => some (t, rest)

/-- Modelled from the spec: the scan-based selection pops (§4.2): remove and
return the element with the smallest key; ties broken by earliest position
in the scan (first-encountered wins); order of the others preserved. -/
def popMinBy (key : Thread → Int) : List Thread → Option (Thread × List Thread)
  | [] => none
  | t :: rest =>
    match popMinBy key rest with
    | none => some (t, rest)
    | some (m, rest') =>
      if key t ≤ key m then some (t, rest) else some (m, t :: rest')

/-- Modelled from the spec: `q_pop_min_burst` (§4.2), keyed on `burst_time`. -/
def q_pop_min_burst : List Thread → Option (Thread × List Thread) :=
  popMinBy (fun t => t.burst_time)

/-- Modelled from the spec: `q_pop_min_remaining` (§4.2), keyed on
`remaining`; used only by SRTCF. -/
def q_pop_min_remaining : List Thread → Option (Thread × List Thread) :=
  popMinBy (fun t => t.remaining)

/-- The core bank (§3 CoreArray): a fixed-length sequence of optional
Thread slots; `none` is an idle core. -/
abbrev CPU := List (Option Thread)

/-- Modelled from the spec: `any_idle` (§4.3). -/
def cpu_any_idle (cpu : CPU) : Bool := cpu.any (fun slot => slot.isNone)

/-- Modelled from the spec: `first_idle` (§4.3): lowest-index idle core. -/
def cpu_first_idle : CPU → Option Nat
  | [] => none
  | none :: _ => some 0
  | some _ :: rest => (cpu_first_idle rest).map (fun i => i + 1)

/-- The field update performed by binding (§4.3 `bind`): state becomes
Running and `start_time` is recorded on first binding only. -/
def bindThread (t : Thread) (now : Int) : Thread :=
  { t with
    state := TState.Running
    start_time := if t.start_time < 0 then now else t.start_time }

/-- Modelled from the spec: `bind` (§4.3): place the thread on core `i`. -/
def cpu_bind_core (cpu : CPU) (i : Nat) (t : Thread) (now : Int) : CPU :=
  cpu.set i (some (bindThread t now))

/-- Modelled from the spec: `unbind` (§4.3): clear core `i`. -/
def cpu_unbind_core (cpu : CPU) (i : Nat) : CPU := cpu.set i none

/-- The threads currently bound to cores, in core-index order. -/
def occupants (cpu : CPU) : List Thread := cpu.filterMap id

/-- Number of occupied cores. -/
def occCount (cpu : CPU) : Nat := (occupants cpu).length

/-- The per-tick execution step on one bound thread (§4.3 `step`):
decrement `remaining` by exactly one tick, floored at 0. -/
def stepThread (t : Thread) : Thread :=
  { t with remaining := max (t.remaining - 1) 0 }

/-- Modelled from the spec: `step` (§4.3) restricted to the core bank:
every occupied core's thread advances by one tick. -/
def cpu_step_cores (cpu : CPU) : CPU := cpu.map (Option.map stepThread)

/-- Accumulator-passing translation of the scan inside
`core_with_largest_remaining_above` (`dispatch.c`): `acc` carries the
current `(best_core, best_rem)` pair, starting from `best_rem = -1`. -/
def cwlraAux (threshold : Int) :
    List (Option Thread) → Nat → Option (Nat × Int) → Option (Nat × Int)
  | [], _, acc => acc
  | none :: rest, i, acc => cwlraAux threshold rest (i + 1) acc
  | some r :: rest, i, acc =>
    let best_rem : Int := match acc with | none => -1 | some p => p.2
    if threshold < r.remaining ∧ best_rem < r.remaining then
      cwlraAux threshold rest (i + 1) (some (i, r.remaining))
    else
      cwlraAux threshold rest (i + 1) acc

/-- Translation of `core_with_largest_remaining_above` (`dispatch.c`):
index of the running thread with the greatest `remaining` strictly above
`threshold` (and strictly above the `-1` accumulator seed), or none. -/
def core_with_largest_remaining_above (cpu : CPU) (threshold : Int) : Option Nat :=
  (cwlraAux threshold cpu 0 none).map (fun p => p.1)

/-- The field update of a thread returned to the Ready queue (§4.1). -/
def readyThread (t : Thread) : Thread := { t with state := TState.Ready }

/-- Modelled from the spec: `preempt_to_ready` (§4.4): unbind the victim
core and push its occupant, state Running→Ready and `remaining` untouched,
onto the ready queue. -/
def preempt_to_ready (cpu : CPU) (i : Nat) (ready : List Thread) :
    CPU × List Thread :=
  match cpu.get? i with
  | some (some t) => (cpu.set i none, q_push ready (readyThread t))
  | _ => (cpu, ready)

/-- The field update of a thread moved to Waiting (§4.5): state Waiting and
`unblocked_at` set to the unblock tick; no other field changes. -/
def waitThread (t : Thread) (unblock : Int) : Thread :=
  { t with state := TState.Waiting, unblocked_at := unblock }

/-- Modelled from the spec: `block_to_waiting` (§4.5): unbind core `i` and
push its occupant onto the waiting queue until `unblock`. -/
def block_to_waiting (cpu : CPU) (i : Nat) (waiting : List Thread)
    (unblock : Int) : CPU × List Thread :=
  match cpu.get? i with
  | some (some t) => (cpu.set i none, q_push waiting (waitThread t unblock))
  | _ => (cpu, waiting)

/-- Modelled from the spec: `waiting_io_resolve` (§4.5, §4.6 step 2): every
waiting thread whose `unblocked_at` equals the clock moves Waiting→Ready;
the rest stay in their original order.  Returns (waiting kept, new ready). -/
def waiting_io_resolve (waiting ready : List Thread) (now : Int) :
    List Thread × List Thread :=
  let due := waiting.filter (fun t => t.unblocked_at == now)
  let keep := waiting.filter (fun t => !(t.unblocked_at == now))
  (keep, ready ++ due.map readyThread)

/-- The wait accrual update (§4.6 step 5). -/
def bumpThread (t : Thread) : Thread := { t with wait_time := t.wait_time + 1 }

/-- Modelled from the spec: `bump_queue_wait` (§4.6 step 5): every thread
still sitting in Ready accrues one tick of `wait_time`. -/
def bump_queue_wait (ready : List Thread) : List Thread := ready.map bumpThread

/-- Translation of `workload_admit_tick` (`sim.c`): scan the workload; the
threads whose `arrival_time` equals the clock move to Ready (state set to
Ready), the others are kept in their original order.  Returns
(workload kept, new ready). -/
def workload_admit_tick (workload ready : List Thread) (now : Int) :
    List Thread × List Thread :=
  let arrive := workload.filter (fun t => t.arrival_time == now)
  let keep := workload.filter (fun t => !(t.arrival_time == now))
  (keep, ready ++ arrive.map readyThread)

/-- The field update of a completed thread (`collect_completions`,
`sim.c`): state Finished; `finish_time` set to the post-step clock value if
still unset. -/
def finishThread (t : Thread) (now : Int) : Thread :=
  { t with
    state := TState.Finished
    finish_time := if t.finish_time < 0 then now else t.finish_time }

/-- Core-order recursion of `collect_completions` (`sim.c`): every core
whose occupant has `remaining == 0` is unbound and its occupant pushed onto
the finished queue. -/
def collectAux (now : Int) :
    List (Option Thread) → List Thread → List (Option Thread) × List Thread
  | [], fin => ([], fin)
  | none :: rest, fin =>
    let r := collectAux now rest fin
    (none :: r.1, r.2)
  | some t :: rest, fin =>
    if t.remaining == 0 then
      let r := collectAux now rest (q_push fin (finishThread t now))
      (none :: r.1, r.2)
    else
      let r := collectAux now rest fin
      (some t :: r.1, r.2)

/-- Translation of `collect_completions` (`sim.c`). -/
def collect_completions (cpu : CPU) (finished : List Thread) (now : Int) :
    CPU × List Thread :=
  collectAux now cpu finished

/-- Core-order recursion of `random_interrupts` (`sim.c`): for every
occupied core the oracle (the injected replacement for the `rand()` draws,
design note §9) decides whether an interrupt fires and with which duration;
an interrupted thread is moved to Waiting until `now + duration` via
`block_to_waiting`. -/
def interruptsAux (oracle : Nat → Option Int) (now : Int) :
    List (Option Thread) → Nat → List Thread → List (Option Thread) × List Thread
  | [], _, w => ([], w)
  | none :: rest, i, w =>
    let r := interruptsAux oracle now rest (i + 1) w
    (none :: r.1, r.2)
  | some t :: rest, i, w =>
    match oracle i with
    | some dur =>
      let r := interruptsAux oracle now rest (i + 1) (q_push w (waitThread t (now + dur)))
      (none :: r.1, r.2)
    | none =>
      let r := interruptsAux oracle now rest (i + 1) w
      (some t :: r.1, r.2)

/-- Translation of `random_interrupts` (`sim.c`): a no-op unless random
interrupts are enabled in the configuration. -/
def random_interrupts (enabled : Bool) (oracle : Nat → Option Int)
    (cpu : CPU) (waiting : List Thread) (now : Int) : CPU × List Thread :=
  if enabled then interruptsAux oracle now cpu 0 waiting else (cpu, waiting)

/-- The shared fill phase of the dispatch policies (`dispatch.c`): while an
idle core exists, pop (with the policy's pop variant) and bind to the first
idle core.  Each iteration removes one element from the ready queue, so a
fuel of `ready.length` makes the recursion run exactly as the C loop. -/
def fillLoop (pop : List Thread → Option (Thread × List Thread)) :
    Nat → CPU → List Thread → Int → CPU × List Thread
  | 0, cpu, ready, _ => (cpu, ready)
  | fuel + 1, cpu, ready, now =>
    match cpu_first_idle cpu with
    | none => (cpu, ready)
    | some i =>
      match pop ready with
      | none => (cpu, ready)
      | some (t, rest) => fillLoop pop fuel (cpu_bind_core cpu i t now) rest now

/-- Translation of `dispatch_fifo` (`dispatch.c`). -/
def dispatch_fifo (cpu : CPU) (ready : List Thread) (now : Int) :
    CPU × List Thread :=
  fillLoop q_pop ready.length cpu ready now

/-- Translation of `dispatch_sjf` (`dispatch.c`). -/
def dispatch_sjf (cpu : CPU) (ready : List Thread) (now : Int) :
    CPU × List Thread :=
  fillLoop q_pop_min_burst ready.length cpu ready now

/-- Translation of the preemption phase of `dispatch_srtcf` (`dispatch.c`),
with explicit fuel.  The `Bool` in the result records through which branch
the loop exited: `true` for the no-victim branch that pushes the candidate
back, `false` for the empty-ready-queue branch (`if (!best) break`). -/
def srtcfLoop : Nat → CPU → List Thread → Int → Option (CPU × List Thread × Bool)
  | 0, _, _, _ => none
  | fuel + 1, cpu, ready, now =>
    match q_pop_min_remaining ready with
    | none => some (cpu, ready, false)
    | some (best, rest) =>
      match cpu_first_idle cpu with
      | some idle => srtcfLoop fuel (cpu_bind_core cpu idle best now) rest now
      | none =>
        match core_with_largest_remaining_above cpu best.remaining with
        | some victim =>
          let pr := preempt_to_ready cpu victim rest
          srtcfLoop fuel (cpu_bind_core pr.1 victim best now) pr.2 now
        | none => some (cpu, q_push rest best, true)

/-- The smallest `remaining` in the ready queue (0 for an empty queue);
only used to size the fuel of the preemption loop. -/
def minReadyRem (ready : List Thread) : Int :=
  match q_pop_min_remaining ready with
  | none => 0
  | some p => p.1.remaining

/-- Whether a core slot holds a thread with `remaining` strictly above `m`. -/
def aboveRem (m : Int) : Option Thread → Bool
  | some t => decide (m < t.remaining)
  | none => false

/-- A fuel bound for the preemption loop: each iteration either consumes a
ready element for good or strictly shrinks the number of running threads
ranked strictly above the best ready candidate. -/
def srtcfMeasure (cpu : CPU) (ready : List Thread) : Nat :=
  ready.length * (cpu.length + 1) + cpu.countP (aboveRem (minReadyRem ready))

/-- Translation of `dispatch_srtcf` (`dispatch.c`): fill idle cores with the
smallest-remaining jobs, then run the preemption loop.  The fuel fallback
branch is dead code (the loop provably terminates within `srtcfMeasure`
steps, see `srtcfLoop_isSome`). -/
def dispatch_srtcf (cpu : CPU) (ready : List Thread) (now : Int) :
    CPU × List Thread :=
  let fill := fillLoop q_pop_min_remaining ready.length cpu ready now
  match srtcfLoop (srtcfMeasure fill.1 fill.2 + 1) fill.1 fill.2 now with
  | some r => (r.1, r.2.1)
  | none => (fill.1, fill.2)

/-- The closed set of dispatch policies (`DispatchAlgo`, `dispatch.h`). -/
inductive Policy where
  | fifo
  | sjf
  | srtcf
deriving DecidableEq

/-- Translation of `dispatch_get` (`dispatch.c`): policy dispatch. -/
def dispatch : Policy → CPU → List Thread → Int → CPU × List Thread
  | Policy.fifo => dispatch_fifo
  | Policy.sjf => dispatch_sjf
  | Policy.srtcf => dispatch_srtcf

/-- The whole simulation state at a tick boundary: the clock (`SIM_TIME`,
threaded explicitly per design note §9), the workload (New) queue, the
Ready, Waiting and Finished queues and the core bank. -/
structure SimState where
  time : Int
  workload : List Thread
  ready : List Thread
  waiting : List Thread
  cores : CPU
  finished : List Thread
deriving DecidableEq

/-- The simulation configuration: dispatch policy, whether random
interrupts are enabled, and the interrupt oracle (clock, core index ↦
optional duration), the injected replacement for the seeded `rand()`. -/
structure SimConfig where
  pol : Policy
  intrEnabled : Bool
  oracle : Int → Nat → Option Int

/-- One iteration of the main simulation loop of `main` (`sim.c`), in the
source's order: admission, I/O resolution, random interrupts, dispatch,
wait accrual, execution step (which also advances `SIM_TIME`, as recorded
by the `collect_completions` comment in `sim.c`), completion collection. -/
def tick (cfg : SimConfig) (s : SimState) : SimState :=
  let aw := workload_admit_tick s.workload s.ready s.time
  let rv := waiting_io_resolve s.waiting aw.2 s.time
  let ir := random_interrupts cfg.intrEnabled (cfg.oracle s.time) s.cores rv.1 s.time
  let dp := dispatch cfg.pol ir.1 rv.2 s.time
  let ready4 := bump_queue_wait dp.2
  let cores3 := cpu_step_cores dp.1
  let time' := s.time + 1
  let cl := collect_completions cores3 s.finished time'
  { time := time'
    workload := aw.1
    ready := ready4
    waiting := ir.2
    cores := cl.1
    finished := cl.2 }

/-- Translation of `all_done` (`sim.c`): Ready and Waiting empty and every
core idle; the workload queue is not inspected. -/
def all_done (s : SimState) : Bool :=
  s.ready.isEmpty && s.waiting.isEmpty && s.cores.all (fun slot => slot.isNone)

/-- The main do-while simulation loop of `main` (`sim.c`) with explicit
fuel: run one tick, stop as soon as `all_done` holds after it. -/
def simLoop (cfg : SimConfig) : Nat → SimState → Option SimState
  | 0, _ => none
  | fuel + 1, s =>
    let s' := tick cfg s
    if all_done s' then some s' else simLoop cfg fuel s'

/-- Iterated ticks without the stopping test, for the tick-boundary
invariants. -/
def simSteps (cfg : SimConfig) : Nat → SimState → SimState
  | 0, s => s
  | n + 1, s => simSteps cfg n (tick cfg s)

/-- Translation of `workload_add` (`sim.c`). -/
def workload_add (workload : List Thread) (tid arrival burst : Int) : List Thread :=
  q_push workload (make_thread tid arrival burst)

/-- The initial state built by `main` (`sim.c`): empty queues, `ncores`
idle cores, clock zero, and the pre-loop admission of tick-0 arrivals. -/
def initState (workload : List Thread) (ncores : Nat) : SimState :=
  let aw := workload_admit_tick workload [] 0
  { time := 0
    workload := aw.1
    ready := aw.2
    waiting := []
    cores := List.replicate ncores none
    finished := [] }

/-- The preset small workload of `main` (`sim.c`, choice 1), which is also
the scenario workload of the design document (§8): A(0,5), B(0,3), C(2,6),
D(4,4) with thread ids 1..4. -/
def presetWorkload : List Thread :=
  workload_add (workload_add (workload_add (workload_add [] 1 0 5) 2 0 3) 3 2 6) 4 4 4

/-- A configuration with interrupts disabled, as in `main` (`sim.c`,
`enable_random = 0`). -/
def quietCfg (pol : Policy) : SimConfig :=
  { pol := pol, intrEnabled := false, oracle := fun _ _ => none }

/-- Thread id and finish time of every finished thread, in completion
order. -/
def finishTable (s : SimState) : List (Int × Int) :=
  s.finished.map (fun t => (t.tid, t.finish_time))

/-- Every place a constructed thread can live at a tick boundary: the
workload (New) queue, Ready, Waiting, the core slots and Finished (§8
partition invariant). -/
def allThreads (s : SimState) : List Thread :=
  s.workload ++ s.ready ++ s.waiting ++ occupants s.cores ++ s.finished

/-- The per-thread evolution contract across one simulation step (§8
monotonicity): identity is stable, `remaining` never increases, `wait_time`
never decreases, and `start_time` and `finish_time`, once set to a
non-negative value, never change again. -/
def Evolves (t t' : Thread) : Prop :=
  t'.tid = t.tid ∧
  t'.remaining ≤ t.remaining ∧
  t.wait_time ≤ t'.wait_time ∧
  (0 ≤ t.start_time → t'.start_time = t.start_time) ∧
  (0 ≤ t.finish_time → t'.finish_time = t.finish_time)

/-- Total outstanding work of a thread list, in ticks. -/
def trSum (l : List Thread) : Nat :=
  (l.map (fun t => t.remaining.toNat)).sum

/-- Total waiting slack of a thread list relative to the clock: ticks left
until each thread's unblock time. -/
def slackSum (now : Int) (l : List Thread) : Nat :=
  (l.map (fun t => (t.unblocked_at - now).toNat)).sum

/-- Termination measure for the simulation loop: outstanding work weighted
heavily, plus waiting slack, plus a per-running-thread potential that pays
for the slack a future interrupt of that thread can create. -/
def phi (ioMax : Int) (s : SimState) : Nat :=
  (ioMax.toNat + 2) *
      (trSum s.workload + trSum s.ready + trSum s.waiting + trSum (occupants s.cores)) +
    slackSum s.time s.waiting +
    (ioMax.toNat + 1) * occCount s.cores

/-- The tick-boundary well-formedness invariant of reachable states: every
live thread still has work left, and no waiting thread's unblock time is in
the past. -/
def SimInv (s : SimState) : Prop :=
  (∀ t ∈ s.workload, 1 ≤ t.remaining) ∧
  (∀ t ∈ s.ready, 1 ≤ t.remaining) ∧
  (∀ t ∈ s.waiting, 1 ≤ t.remaining) ∧
  (∀ t ∈ occupants s.cores, 1 ≤ t.remaining) ∧
  (∀ t ∈ s.waiting, s.time ≤ t.unblocked_at)

/-- A bounded-positive-duration interrupt configuration (§6): every
duration the oracle can produce lies in `[1, ioMax]`. -/
def OracleOk (oracle : Int → Nat → Option Int) (ioMax : Int) : Prop :=
  ∀ now i d, oracle now i = some d → 1 ≤ d ∧ d ≤ ioMax

end SchedSim

namespace SJFScan

/-- Modelled from the spec: the `process` record of `process.h`
(`CSE4300/abhinav-daniel-eric-vin`), a header missing from the repository
sources; only the fields read or written by `sjf.c` are modelled. -/
structure Process where
  remainingTime : Int
  finishTime : Int
deriving DecidableEq

/-- The selection scan of `sjf` (`sjf.c`): `for (i = 0; i <= len; i++)`
over `procArray`, tracking the smallest `remainingTime` seen (ties by `<=`,
so last-encountered wins) and its index.  Array indexing is Option-guarded:
the result is `none` as soon as an access past the end of the array occurs.
The first argument is the number of loop iterations left, `len + 1 - i`. -/
def sjfScanAux (procs : List Process) :
    Nat → Nat → Int → Option Nat → Option (Option Nat)
  | 0, _, _, pid => some pid
  | k + 1, i, shortest, pid =>
    match procs.get? i with
    | none => none
    | some p =>
      if p.remainingTime ≤ shortest then
        sjfScanAux procs k (i + 1) p.remainingTime (some i)
      else
        sjfScanAux procs k (i + 1) shortest pid

/-- The full selection scan of `sjf` (`sjf.c`), starting from
`shortest = 2147483647` (`INT_MAX`) and an unset `pid`, with the loop bound
`i <= len` taken against the number of valid entries of the array. -/
def sjfScan (procs : List Process) (len : Nat) : Option (Option Nat) :=
  sjfScanAux procs (len + 1) 0 2147483647 none

end SJFScan

namespace SchedSim

/-- C4: with one core, the FIFO policy and interrupts disabled, the preset
workload A(arrival 0, burst 5), B(0,3), C(2,6), D(4,4) finishes in arrival
order with finish times A=5, B=8, C=14, D=18 and no preemption: the
finished queue, in completion order, is exactly A,B,C,D with those times. -/
theorem fifo_scenario_finish_times :
    (simLoop (quietCfg Policy.fifo) 50 (initState presetWorkload 1)).map finishTable
      = some [(1, 5), (2, 8), (3, 14), (4, 18)] := by decide

/-- C5: with one core, the non-preemptive SJF policy and interrupts
disabled, the same workload finishes smallest-burst-first: B=3, A=8, D=12,
C=18, in that completion order. -/
theorem sjf_scenario_finish_times :
    (simLoop (quietCfg Policy.sjf) 50 (initState presetWorkload 1)).map finishTable
      = some [(2, 3), (1, 8), (4, 12), (3, 18)] := by decide

/-- C7: `all_done` inspects only Ready, Waiting and the cores, never the
workload queue: with thread 1 arriving at tick 0 with burst 1 and thread 2
arriving at tick 10, the simulation stops (returning a final state) while
thread 2 is still sitting in the workload queue, never admitted and never
finished. -/
theorem termination_ignores_workload_queue :
    (simLoop (quietCfg Policy.srtcf) 5
        (initState (workload_add (workload_add [] 1 0 1) 2 10 5) 1)).map
        (fun s => (s.workload.map Thread.tid, s.finished.map Thread.tid))
      = some ([2], [1]) := by decide

end SchedSim

namespace SJFScan

/-- C10: the selection scan of `sjf` runs its index up to `i = len`
inclusive against an array whose valid entries are `0..len-1`, so on this
one-element array (`len = 1`) the guarded indexing takes its out-of-bounds
branch: the access at `i = len` falls past the end of the array. -/
theorem sjf_scan_out_of_bounds :
    sjfScan [⟨5, -1⟩] (List.length [(⟨5, -1⟩ : Process)]) = none := by decide

end SJFScan

namespace SchedSim

theorem popMinBy_cons_isSome (key : Thread → Int) (t : Thread) (rest : List Thread) :
    (popMinBy key (t :: rest)).isSome := by
  cases hr : popMinBy key rest with
  | none => simp [popMinBy, hr]
  | some p =>
    obtain ⟨m, r⟩ := p
    by_cases hk : key t ≤ key m <;> simp [popMinBy, hr, hk]

theorem popMinBy_eq_none_iff (key : Thread → Int) (q : List Thread) :
    popMinBy key q = none ↔ q = [] := by
  cases q with
  | nil => simp [popMinBy]
  | cons t rest =>
    have hs := popMinBy_cons_isSome key t rest
    constructor
    · intro h
      rw [h] at hs
      exact absurd hs (by simp)
    · intro h
      exact absurd h (by simp)

theorem popMinBy_spec (key : Thread → Int) :
    ∀ (q : List Thread) (m : Thread) (r : List Thread),
      popMinBy key q = some (m, r) →
        q.Perm (m :: r) ∧ ∀ x ∈ q, key m ≤ key x := by
  intro q
  induction q with
  | nil => intro m r h; simp [popMinBy] at h
  | cons t rest ih =>
    intro m r h
    cases hr : popMinBy key rest with
    | none =>
      have hrest : rest = [] := (popMinBy_eq_none_iff key rest).mp hr
      subst hrest
      simp [popMinBy] at h
      obtain ⟨hm, hrr⟩ := h
      subst hm
      subst hrr
      exact ⟨List.Perm.refl _, by simp⟩
    | some p =>
      obtain ⟨m', r'⟩ := p
      have hspec := ih m' r' hr
      by_cases hk : key t ≤ key m'
      · simp [popMinBy, hr, hk] at h
        obtain ⟨hm, hrr⟩ := h
        subst hm
        subst hrr
        refine ⟨List.Perm.refl _, ?_⟩
        intro x hx
        rcases List.mem_cons.mp hx with hx | hx
        · subst hx; exact le_refl _
        · exact le_trans hk (hspec.2 x hx)
      · simp [popMinBy, hr, hk] at h
        obtain ⟨hm, hrr⟩ := h
        subst hm
        subst hrr
        refine ⟨(List.Perm.cons t hspec.1).trans (List.Perm.swap _ _ _), ?_⟩
        intro x hx
        rcases List.mem_cons.mp hx with hx | hx
        · subst hx; exact le_of_lt (lt_of_not_le hk)
        · exact hspec.2 x hx

theorem popMinBy_perm (key : Thread → Int) {q : List Thread} {m : Thread}
    {r : List Thread} (h : popMinBy key q = some (m, r)) : q.Perm (m :: r) :=
  (popMinBy_spec key q m r h).1

theorem popMinBy_min (key : Thread → Int) {q : List Thread} {m : Thread}
    {r : List Thread} (h : popMinBy key q = some (m, r)) :
    ∀ x ∈ q, key m ≤ key x :=
  (popMinBy_spec key q m r h).2

theorem popMinBy_length (key : Thread → Int) {q : List Thread} {m : Thread}
    {r : List Thread} (h : popMinBy key q = some (m, r)) :
    r.length + 1 = q.length := by
  have := (popMinBy_perm key h).length_eq
  simpa using this.symm

theorem popMinBy_mem (key : Thread → Int) {q : List Thread} {m : Thread}
    {r : List Thread} (h : popMinBy key q = some (m, r)) : m ∈ q :=
  (popMinBy_perm key h).mem_iff.mpr (List.mem_cons_self m r)

theorem popMinBy_subset (key : Thread → Int) {q : List Thread} {m : Thread}
    {r : List Thread} (h : popMinBy key q = some (m, r)) :
    ∀ x ∈ r, x ∈ q := by
  intro x hx
  exact (popMinBy_perm key h).mem_iff.mpr (List.mem_cons_of_mem m hx)

theorem q_pop_perm {q : List Thread} {m : Thread} {r : List Thread}
    (h : q_pop q = some (m, r)) : q.Perm (m :: r) := by
  cases q with
  | nil => simp [q_pop] at h
  | cons t rest =>
    simp [q_pop] at h
    obtain ⟨hm, hr⟩ := h
    subst hm
    subst hr
    exact List.Perm.refl _

theorem cpu_first_idle_eq_none {cpu : CPU} (h : cpu_first_idle cpu = none) :
    ∀ slot ∈ cpu, slot.isSome := by
  induction cpu with
  | nil => intro slot hs; simp at hs
  | cons a rest ih =>
    intro slot hs
    cases a with
    | none => simp [cpu_first_idle] at h
    | some t =>
      rcases List.mem_cons.mp hs with hs | hs
      · subst hs; simp
      · simp [cpu_first_idle] at h
        exact ih h slot hs

theorem cpu_first_idle_get {cpu : CPU} {i : Nat} (h : cpu_first_idle cpu = some i) :
    cpu.get? i = some none := by
  induction cpu generalizing i with
  | nil => simp [cpu_first_idle] at h
  | cons a rest ih =>
    cases a with
    | none =>
      simp [cpu_first_idle] at h
      subst h
      rfl
    | some t =>
      simp [cpu_first_idle] at h
      obtain ⟨j, hj, hij⟩ := h
      subst hij
      simpa using ih hj

theorem get?_set_self {α : Type} : ∀ (l : List α) (i : Nat) (x : α),
    i < l.length → (l.set i x).get? i = some x := by
  intro l
  induction l with
  | nil => intro i x h; simp at h
  | cons a rest ih =>
    intro i x h
    cases i with
    | zero => rfl
    | succ j =>
      simp only [List.set]
      simpa using ih j x (by simpa using h)

theorem get?_lt_length {α : Type} {l : List α} {i : Nat} {x : α}
    (h : l.get? i = some x) : i < l.length :=
  List.get?_eq_some.mp h |>.1

theorem occupants_cons (a : Option Thread) (rest : CPU) :
    occupants (a :: rest) = a.toList ++ occupants rest := by
  cases a <;> simp [occupants, Option.toList]

theorem occupants_nil : occupants [] = [] := rfl

theorem occupants_set : ∀ (l : CPU) (i : Nat) (o x : Option Thread),
    l.get? i = some o →
      (occupants (l.set i x) : Multiset Thread) + ↑o.toList =
        (occupants l : Multiset Thread) + ↑x.toList := by
  intro l
  induction l with
  | nil => intro i o x h; simp at h
  | cons a rest ih =>
    intro i o x h
    cases i with
    | zero =>
      simp at h
      subst h
      show (occupants (x :: rest) : Multiset Thread) + ↑(Option.toList a) =
        (occupants (a :: rest) : Multiset Thread) + ↑(Option.toList x)
      rw [occupants_cons, occupants_cons]
      simp only [← Multiset.coe_add]
      abel
    | succ j =>
      have hj : rest.get? j = some o := by simpa using h
      have h2 := ih j o x hj
      show (occupants (a :: rest.set j x) : Multiset Thread) + ↑(Option.toList o) =
        (occupants (a :: rest) : Multiset Thread) + ↑(Option.toList x)
      rw [occupants_cons, occupants_cons]
      simp only [← Multiset.coe_add]
      rw [add_assoc, h2, ← add_assoc]

theorem occupants_length_le (l : CPU) : (occupants l).length ≤ l.length := by
  induction l with
  | nil => simp [occupants]
  | cons a rest ih =>
    rw [occupants_cons]
    cases a <;> simp [Option.toList] <;> omega

theorem countP_set (p : Option Thread → Bool) :
    ∀ (l : CPU) (i : Nat) (o x : Option Thread), l.get? i = some o →
      (l.set i x).countP p + (if p o then 1 else 0) =
        l.countP p + (if p x then 1 else 0) := by
  intro l
  induction l with
  | nil => intro i o x h; simp at h
  | cons a rest ih =>
    intro i o x h
    cases i with
    | zero =>
      simp at h
      subst h
      simp [List.countP_cons]
      omega
    | succ j =>
      have hj : rest.get? j = some o := by simpa using h
      simp only [List.set, List.countP_cons]
      have := ih j o x hj
      omega

end SchedSim

namespace SchedSim

theorem cwlraAux_acc_isSome (threshold : Int) :
    ∀ (l : List (Option Thread)) (i : Nat) (p : Nat × Int),
      (cwlraAux threshold l i (some p)).isSome := by
  intro l
  induction l with
  | nil => intro i p; simp [cwlraAux]
  | cons a rest ih =>
    intro i p
    cases a with
    | none => simpa [cwlraAux] using ih (i + 1) p
    | some r =>
      simp only [cwlraAux]
      split
      · exact ih (i + 1) _
      · exact ih (i + 1) p

theorem cwlraAux_none (threshold : Int) :
    ∀ (l : List (Option Thread)) (i : Nat),
      cwlraAux threshold l i none = none →
        ∀ t ∈ occupants l, ¬(threshold < t.remaining ∧ (-1 : Int) < t.remaining) := by
  intro l
  induction l with
  | nil => intro i h t ht; simp [occupants] at ht
  | cons a rest ih =>
    intro i h t ht
    cases a with
    | none =>
      simp only [cwlraAux] at h
      rw [occupants_cons] at ht
      simp only [Option.toList, List.nil_append] at ht
      exact ih (i + 1) h t ht
    | some r =>
      rw [occupants_cons] at ht
      have hun : cwlraAux threshold (some r :: rest) i none =
          if threshold < r.remaining ∧ (-1 : Int) < r.remaining then
            cwlraAux threshold rest (i + 1) (some (i, r.remaining))
          else
            cwlraAux threshold rest (i + 1) none := rfl
      by_cases hc : threshold < r.remaining ∧ (-1 : Int) < r.remaining
      · exfalso
        have hs := cwlraAux_acc_isSome threshold rest (i + 1) (i, r.remaining)
        rw [hun, if_pos hc] at h
        rw [h] at hs
        simp at hs
      · rw [hun, if_neg hc] at h
        rcases List.mem_append.mp ht with ht | ht
        · simp only [Option.toList, List.mem_singleton] at ht
          subst ht
          exact hc
        · exact ih (i + 1) h t ht

theorem cwlraAux_some (threshold : Int) :
    ∀ (l : List (Option Thread)) (i : Nat) (acc : Option (Nat × Int)) (j : Nat) (b : Int),
      cwlraAux threshold l i acc = some (j, b) →
        acc = some (j, b) ∨
          ∃ k t, l.get? k = some (some t) ∧ j = i + k ∧ b = t.remaining ∧
            threshold < t.remaining := by
  intro l
  induction l with
  | nil =>
    intro i acc j b h
    simp only [cwlraAux] at h
    exact Or.inl h
  | cons a rest ih =>
    intro i acc j b h
    cases a with
    | none =>
      simp only [cwlraAux] at h
      rcases ih (i + 1) acc j b h with hl | ⟨k, t, hk, hj, hb, hth⟩
      · exact Or.inl hl
      · refine Or.inr ⟨k + 1, t, ?_, ?_, hb, hth⟩
        · simpa using hk
        · omega
    | some r =>
      cases acc with
      | none =>
        have hun : cwlraAux threshold (some r :: rest) i none =
            if threshold < r.remaining ∧ (-1 : Int) < r.remaining then
              cwlraAux threshold rest (i + 1) (some (i, r.remaining))
            else
              cwlraAux threshold rest (i + 1) none := rfl
        by_cases hc : threshold < r.remaining ∧ (-1 : Int) < r.remaining
        · rw [hun, if_pos hc] at h
          rcases ih (i + 1) (some (i, r.remaining)) j b h with hl | ⟨k, t, hk, hj, hb, hth⟩
          · simp at hl
            obtain ⟨hj, hb⟩ := hl
            exact Or.inr ⟨0, r, rfl, by omega, hb.symm, hc.1⟩
          · refine Or.inr ⟨k + 1, t, ?_, ?_, hb, hth⟩
            · simpa using hk
            · omega
        · rw [hun, if_neg hc] at h
          rcases ih (i + 1) none j b h with hl | ⟨k, t, hk, hj, hb, hth⟩
          · exact Or.inl hl
          · refine Or.inr ⟨k + 1, t, ?_, ?_, hb, hth⟩
            · simpa using hk
            · omega
      | some q =>
        have hun : cwlraAux threshold (some r :: rest) i (some q) =
            if threshold < r.remaining ∧ q.2 < r.remaining then
              cwlraAux threshold rest (i + 1) (some (i, r.remaining))
            else
              cwlraAux threshold rest (i + 1) (some q) := rfl
        by_cases hc : threshold < r.remaining ∧ q.2 < r.remaining
        · rw [hun, if_pos hc] at h
          rcases ih (i + 1) (some (i, r.remaining)) j b h with hl | ⟨k, t, hk, hj, hb, hth⟩
          · simp at hl
            obtain ⟨hj, hb⟩ := hl
            exact Or.inr ⟨0, r, rfl, by omega, hb.symm, hc.1⟩
          · refine Or.inr ⟨k + 1, t, ?_, ?_, hb, hth⟩
            · simpa using hk
            · omega
        · rw [hun, if_neg hc] at h
          rcases ih (i + 1) (some q) j b h with hl | ⟨k, t, hk, hj, hb, hth⟩
          · exact Or.inl hl
          · refine Or.inr ⟨k + 1, t, ?_, ?_, hb, hth⟩
            · simpa using hk
            · omega

theorem cwlra_none {cpu : CPU} {threshold : Int}
    (h : core_with_largest_remaining_above cpu threshold = none) :
    ∀ t ∈ occupants cpu, ¬(threshold < t.remaining ∧ (-1 : Int) < t.remaining) := by
  unfold core_with_largest_remaining_above at h
  cases hx : cwlraAux threshold cpu 0 none with
  | none => exact cwlraAux_none threshold cpu 0 hx
  | some p => rw [hx] at h; simp at h

theorem cwlra_some {cpu : CPU} {threshold : Int} {j : Nat}
    (h : core_with_largest_remaining_above cpu threshold = some j) :
    ∃ t, cpu.get? j = some (some t) ∧ threshold < t.remaining := by
  unfold core_with_largest_remaining_above at h
  cases hx : cwlraAux threshold cpu 0 none with
  | none => rw [hx] at h; simp at h
  | some p =>
    rw [hx] at h
    obtain ⟨m, r⟩ := p
    simp at h
    rcases cwlraAux_some threshold cpu 0 none m r hx with hl | ⟨k, t, hk, hj, hb, hth⟩
    · simp at hl
    · have hjj : j = k := by omega
      subst hjj
      exact ⟨t, hk, hth⟩

theorem mem_occupants_of_get? : ∀ {l : CPU} {i : Nat} {t : Thread},
    l.get? i = some (some t) → t ∈ occupants l := by
  intro l
  induction l with
  | nil => intro i t h; simp at h
  | cons a rest ih =>
    intro i t h
    cases i with
    | zero =>
      simp at h
      subst h
      rw [occupants_cons]
      simp [Option.toList]
    | succ j =>
      have hj : rest.get? j = some (some t) := by simpa using h
      rw [occupants_cons]
      exact List.mem_append.mpr (Or.inr (ih hj))

theorem mem_occupants_set {l : CPU} {i : Nat} {o : Option Thread}
    (h : l.get? i = some o) {x : Option Thread} :
    ∀ u ∈ occupants (l.set i x), u ∈ occupants l ∨ u ∈ x.toList := by
  intro u hu
  have hm := occupants_set l i o x h
  have : u ∈ (occupants (l.set i x) : Multiset Thread) + ↑o.toList := by
    rw [Multiset.mem_add]
    exact Or.inl (by simpa using hu)
  rw [hm, Multiset.mem_add] at this
  rcases this with h1 | h1
  · exact Or.inl (by simpa using h1)
  · exact Or.inr (by simpa using h1)

end SchedSim

namespace SchedSim

theorem q_pop_min_remaining_eq (q : List Thread) :
    q_pop_min_remaining q = popMinBy (fun t => t.remaining) q := rfl

theorem q_pop_min_burst_eq (q : List Thread) :
    q_pop_min_burst q = popMinBy (fun t => t.burst_time) q := rfl

theorem srtcfLoop_exit_shape :
    ∀ (fuel : Nat) (cpu : CPU) (ready : List Thread) (now : Int)
      (res : CPU × List Thread × Bool),
      srtcfLoop fuel cpu ready now = some res →
        (res.2.2 = false ∧ res.2.1 = []) ∨
        (res.2.2 = true ∧ ∃ best rest,
          res.2.1 = q_push rest best ∧
          (∀ x ∈ rest, best.remaining ≤ x.remaining) ∧
          cpu_first_idle res.1 = none ∧
          core_with_largest_remaining_above res.1 best.remaining = none) := by
  intro fuel
  induction fuel with
  | zero => intro cpu ready now res h; simp [srtcfLoop] at h
  | succ n ih =>
    intro cpu ready now res h
    cases hp : q_pop_min_remaining ready with
    | none =>
      have hr : ready = [] := (popMinBy_eq_none_iff _ ready).mp hp
      simp only [srtcfLoop, hp] at h
      have hres := Option.some.inj h
      subst hres
      exact Or.inl ⟨rfl, hr⟩
    | some p =>
      obtain ⟨best, rest⟩ := p
      cases hi : cpu_first_idle cpu with
      | some idle =>
        simp only [srtcfLoop, hp, hi] at h
        exact ih _ _ now res h
      | none =>
        cases hv : core_with_largest_remaining_above cpu best.remaining with
        | some victim =>
          simp only [srtcfLoop, hp, hi, hv] at h
          exact ih _ _ now res h
        | none =>
          simp only [srtcfLoop, hp, hi, hv] at h
          have hres := Option.some.inj h
          subst hres
          refine Or.inr ⟨rfl, best, rest, rfl, ?_, hi, hv⟩
          intro x hx
          have hx' := popMinBy_subset (fun t => t.remaining) hp x hx
          exact popMinBy_min (fun t => t.remaining) hp x hx'

theorem interruptsAux_spec (oracle : Nat → Option Int) (now : Int) :
    ∀ (l : CPU) (i : Nat) (w : List Thread),
      (∀ t' ∈ (interruptsAux oracle now l i w).2,
          t' ∈ w ∨ ∃ t ∈ occupants l, ∃ u, t' = waitThread t u) ∧
      (∀ t' ∈ occupants (interruptsAux oracle now l i w).1, t' ∈ occupants l) := by
  intro l
  induction l with
  | nil =>
    intro i w
    constructor
    · intro t' ht'
      exact Or.inl ht'
    · intro t' ht'
      exact ht'
  | cons a rest ih =>
    intro i w
    cases a with
    | none =>
      have e : interruptsAux oracle now (none :: rest) i w =
          (none :: (interruptsAux oracle now rest (i + 1) w).1,
            (interruptsAux oracle now rest (i + 1) w).2) := rfl
      rw [e]
      constructor
      · intro t' ht'
        rcases (ih (i + 1) w).1 t' ht' with h1 | ⟨t, ht, u, hu⟩
        · exact Or.inl h1
        · refine Or.inr ⟨t, ?_, u, hu⟩
          rw [occupants_cons]
          exact List.mem_append.mpr (Or.inr ht)
      · intro t' ht'
        rw [occupants_cons] at ht' ⊢
        simp only [Option.toList, List.nil_append] at ht' ⊢
        exact (ih (i + 1) w).2 t' ht'
    | some t =>
      cases ho : oracle i with
      | some dur =>
        have e : interruptsAux oracle now (some t :: rest) i w =
            (none :: (interruptsAux oracle now rest (i + 1)
                (q_push w (waitThread t (now + dur)))).1,
              (interruptsAux oracle now rest (i + 1)
                (q_push w (waitThread t (now + dur)))).2) := by
          simp only [interruptsAux, ho]
        rw [e]
        constructor
        · intro t' ht'
          rcases (ih (i + 1) (q_push w (waitThread t (now + dur)))).1 t' ht' with h1 | ⟨u, hu, v, hv⟩
          · rcases List.mem_append.mp h1 with h2 | h2
            · exact Or.inl h2
            · simp only [List.mem_singleton] at h2
              refine Or.inr ⟨t, ?_, now + dur, h2⟩
              rw [occupants_cons]
              simp [Option.toList]
          · refine Or.inr ⟨u, ?_, v, hv⟩
            rw [occupants_cons]
            exact List.mem_append.mpr (Or.inr hu)
        · intro t' ht'
          rw [occupants_cons] at ht' ⊢
          simp only [Option.toList, List.nil_append] at ht'
          have := (ih (i + 1) (q_push w (waitThread t (now + dur)))).2 t' ht'
          exact List.mem_append.mpr (Or.inr this)
      | none =>
        have e : interruptsAux oracle now (some t :: rest) i w =
            (some t :: (interruptsAux oracle now rest (i + 1) w).1,
              (interruptsAux oracle now rest (i + 1) w).2) := by
          simp only [interruptsAux, ho]
        rw [e]
        constructor
        · intro t' ht'
          rcases (ih (i + 1) w).1 t' ht' with h1 | ⟨u, hu, v, hv⟩
          · exact Or.inl h1
          · refine Or.inr ⟨u, ?_, v, hv⟩
            rw [occupants_cons]
            exact List.mem_append.mpr (Or.inr hu)
        · intro t' ht'
          rw [occupants_cons] at ht' ⊢
          rcases List.mem_append.mp ht' with h1 | h1
          · exact List.mem_append.mpr (Or.inl h1)
          · exact List.mem_append.mpr
              (Or.inr ((ih (i + 1) w).2 t' h1))

end SchedSim

namespace SchedSim

theorem fillLoop_preserve (pop : List Thread → Option (Thread × List Thread))
    (hpop : ∀ q m r, pop q = some (m, r) → q.Perm (m :: r))
    (P : Thread → Prop) (hP : ∀ t now, P t → P (bindThread t now)) :
    ∀ (fuel : Nat) (cpu : CPU) (ready : List Thread) (now : Int),
      (∀ t ∈ occupants cpu, P t) → (∀ t ∈ ready, P t) →
        (∀ t ∈ occupants (fillLoop pop fuel cpu ready now).1, P t) ∧
        (∀ t ∈ (fillLoop pop fuel cpu ready now).2, P t) := by
  intro fuel
  induction fuel with
  | zero => intro cpu ready now hc hr; exact ⟨hc, hr⟩
  | succ n ih =>
    intro cpu ready now hc hr
    cases hi : cpu_first_idle cpu with
    | none => simp only [fillLoop, hi]; exact ⟨hc, hr⟩
    | some i =>
      cases hp : pop ready with
      | none => simp only [fillLoop, hi, hp]; exact ⟨hc, hr⟩
      | some p =>
        obtain ⟨t, rest⟩ := p
        simp only [fillLoop, hi, hp]
        have hperm := hpop ready t rest hp
        have hrest : ∀ x ∈ rest, P x := fun x hx =>
          hr x (hperm.mem_iff.mpr (List.mem_cons_of_mem _ hx))
        have ht : P t := hr t (hperm.mem_iff.mpr (List.mem_cons_self _ _))
        have hget := cpu_first_idle_get hi
        have hc' : ∀ x ∈ occupants (cpu_bind_core cpu i t now), P x := by
          intro x hx
          rcases mem_occupants_set hget x hx with h1 | h1
          · exact hc x h1
          · simp only [Option.toList, List.mem_singleton] at h1
            subst h1
            exact hP t now ht
        exact ih _ rest now hc' hrest

theorem srtcfLoop_nonneg_post :
    ∀ (fuel : Nat) (cpu : CPU) (ready : List Thread) (now : Int)
      (res : CPU × List Thread × Bool),
      srtcfLoop fuel cpu ready now = some res →
      (∀ t ∈ occupants cpu, 0 ≤ t.remaining) →
      (∀ t ∈ ready, 0 ≤ t.remaining) →
        ∀ R ∈ res.2.1, ∀ T ∈ occupants res.1, T.remaining ≤ R.remaining := by
  intro fuel
  induction fuel with
  | zero => intro cpu ready now res h; simp [srtcfLoop] at h
  | succ n ih =>
    intro cpu ready now res h hc hr
    cases hp : q_pop_min_remaining ready with
    | none =>
      have hready : ready = [] := (popMinBy_eq_none_iff _ ready).mp hp
      simp only [srtcfLoop, hp] at h
      have hres := Option.some.inj h
      subst hres
      subst hready
      intro R hR
      simp at hR
    | some p =>
      obtain ⟨best, rest⟩ := p
      have hp2 : popMinBy (fun t => t.remaining) ready = some (best, rest) := hp
      have hrest : ∀ x ∈ rest, 0 ≤ x.remaining := fun x hx =>
        hr x (popMinBy_subset _ hp2 x hx)
      have hbest : 0 ≤ best.remaining := hr best (popMinBy_mem _ hp2)
      cases hi : cpu_first_idle cpu with
      | some idle =>
        simp only [srtcfLoop, hp, hi] at h
        have hget := cpu_first_idle_get hi
        have hc' : ∀ x ∈ occupants (cpu_bind_core cpu idle best now), 0 ≤ x.remaining := by
          intro x hx
          rcases mem_occupants_set hget x hx with h1 | h1
          · exact hc x h1
          · simp only [Option.toList, List.mem_singleton] at h1
            subst h1
            exact hbest
        exact ih _ rest now res h hc' hrest
      | none =>
        cases hv : core_with_largest_remaining_above cpu best.remaining with
        | some victim =>
          simp only [srtcfLoop, hp, hi, hv] at h
          obtain ⟨vt, hvt, hbv⟩ := cwlra_some hv
          have hpr : preempt_to_ready cpu victim rest =
              (cpu.set victim none, q_push rest (readyThread vt)) := by
            unfold preempt_to_ready
            rw [hvt]
          rw [hpr] at h
          have hset : cpu_bind_core (cpu.set victim none) victim best now =
              cpu.set victim (some (bindThread best now)) := by
            unfold cpu_bind_core
            exact List.set_set _ _ _ _
          rw [hset] at h
          have hc' : ∀ x ∈ occupants (cpu.set victim (some (bindThread best now))),
              0 ≤ x.remaining := by
            intro x hx
            rcases mem_occupants_set hvt x hx with h1 | h1
            · exact hc x h1
            · simp only [Option.toList, List.mem_singleton] at h1
              subst h1
              exact hbest
          have hr' : ∀ x ∈ q_push rest (readyThread vt), 0 ≤ x.remaining := by
            intro x hx
            rcases List.mem_append.mp hx with h1 | h1
            · exact hrest x h1
            · simp only [List.mem_singleton] at h1
              subst h1
              exact hc vt (mem_occupants_of_get? hvt)
          exact ih _ _ now res h hc' hr'
        | none =>
          simp only [srtcfLoop, hp, hi, hv] at h
          have hres := Option.some.inj h
          subst hres
          intro R hR T hT
          have hno := cwlra_none hv T hT
          have hTb : T.remaining ≤ best.remaining := by
            by_contra hcon
            push_neg at hcon
            exact hno ⟨hcon, lt_of_lt_of_le (by norm_num) (hc T hT)⟩
          rcases List.mem_append.mp hR with h1 | h1
          · exact le_trans hTb (popMinBy_min _ hp2 R (popMinBy_subset _ hp2 R h1))
          · simp only [List.mem_singleton] at h1
            subst h1
            exact hTb

end SchedSim

namespace SchedSim

theorem aboveRem_some (m : Int) (t : Thread) :
    aboveRem m (some t) = decide (m < t.remaining) := rfl

theorem aboveRem_none (m : Int) : aboveRem m none = false := rfl

theorem srtcfLoop_isSome :
    ∀ (fuel : Nat) (cpu : CPU) (ready : List Thread) (now : Int),
      srtcfMeasure cpu ready < fuel → (srtcfLoop fuel cpu ready now).isSome := by
  intro fuel
  induction fuel with
  | zero => intro cpu ready now h; exact absurd h (Nat.not_lt_zero _)
  | succ n ih =>
    intro cpu ready now h
    cases hp : q_pop_min_remaining ready with
    | none => simp [srtcfLoop, hp]
    | some p =>
      obtain ⟨best, rest⟩ := p
      have hp2 : popMinBy (fun t => t.remaining) ready = some (best, rest) := hp
      have hlen : rest.length + 1 = ready.length := popMinBy_length _ hp2
      have hmin : minReadyRem ready = best.remaining := by
        unfold minReadyRem
        rw [hp]
      cases hi : cpu_first_idle cpu with
      | some idle =>
        simp only [srtcfLoop, hp, hi]
        apply ih
        have hle : srtcfMeasure (cpu_bind_core cpu idle best now) rest ≤
            rest.length * (cpu.length + 1) + cpu.length := by
          unfold srtcfMeasure cpu_bind_core
          have h1 := List.countP_le_length (aboveRem (minReadyRem rest))
            (l := cpu.set idle (some (bindThread best now)))
          simp only [List.length_set] at h1 ⊢
          omega
        unfold srtcfMeasure at h
        have h2 : ready.length * (cpu.length + 1) =
            rest.length * (cpu.length + 1) + (cpu.length + 1) := by
          rw [← hlen, Nat.succ_mul]
        omega
      | none =>
        cases hv : core_with_largest_remaining_above cpu best.remaining with
        | none => simp [srtcfLoop, hp, hi, hv]
        | some victim =>
          simp only [srtcfLoop, hp, hi, hv]
          obtain ⟨vt, hvt, hbv⟩ := cwlra_some hv
          have hpr : preempt_to_ready cpu victim rest =
              (cpu.set victim none, q_push rest (readyThread vt)) := by
            unfold preempt_to_ready
            rw [hvt]
          rw [hpr]
          have hset : cpu_bind_core (cpu.set victim none) victim best now =
              cpu.set victim (some (bindThread best now)) := by
            unfold cpu_bind_core
            exact List.set_set _ _ _ _
          simp only [hset]
          apply ih
          -- the best candidate of the new ready queue is no better than the old one
          have hm' : best.remaining ≤ minReadyRem (q_push rest (readyThread vt)) := by
            cases hq : q_pop_min_remaining (q_push rest (readyThread vt)) with
            | none =>
              have := (popMinBy_eq_none_iff _ _).mp hq
              simp [q_push] at this
            | some q0 =>
              obtain ⟨m0, r0⟩ := q0
              have hq2 : popMinBy (fun t => t.remaining) (q_push rest (readyThread vt)) =
                  some (m0, r0) := hq
              have hmem := popMinBy_mem _ hq2
              have he : minReadyRem (q_push rest (readyThread vt)) = m0.remaining := by
                unfold minReadyRem
                rw [hq]
              rw [he]
              rcases List.mem_append.mp hmem with h1 | h1
              · exact popMinBy_min _ hp2 m0 (popMinBy_subset _ hp2 m0 h1)
              · simp only [List.mem_singleton] at h1
                subst h1
                exact le_of_lt hbv
          have hvic_lt : victim < cpu.length := get?_lt_length hvt
          have hget1 : (cpu.set victim none).get? victim = some none :=
            get?_set_self _ _ _ (by simpa using hvic_lt)
          have c1 := countP_set (aboveRem (minReadyRem (q_push rest (readyThread vt))))
            (cpu.set victim none) victim none (some (bindThread best now)) hget1
          rw [List.set_set] at c1
          have hbbf : aboveRem (minReadyRem (q_push rest (readyThread vt)))
              (some (bindThread best now)) = false := by
            rw [aboveRem_some]
            exact decide_eq_false (not_lt.mpr hm')
          rw [hbbf, aboveRem_none] at c1
          simp only [Bool.false_eq_true, if_false] at c1
          have c2 := countP_set (aboveRem best.remaining) cpu victim (some vt) none hvt
          have hvtt : aboveRem best.remaining (some vt) = true := by
            rw [aboveRem_some]
            exact decide_eq_true hbv
          rw [hvtt, aboveRem_none] at c2
          simp only [Bool.false_eq_true, if_false, if_true] at c2
          have c3 : (cpu.set victim none).countP
                (aboveRem (minReadyRem (q_push rest (readyThread vt)))) ≤
              (cpu.set victim none).countP (aboveRem best.remaining) := by
            apply List.countP_mono_left
            intro slot hs hps
            cases slot with
            | none => simp [aboveRem_none] at hps
            | some t =>
              rw [aboveRem_some] at hps ⊢
              simp only [decide_eq_true_eq] at hps ⊢
              exact lt_of_le_of_lt hm' hps
          unfold srtcfMeasure at h ⊢
          rw [hmin] at h
          have hlq : (q_push rest (readyThread vt)).length = ready.length := by
            simp [q_push]
            omega
          rw [hlq, List.length_set]
          omega

end SchedSim

namespace SchedSim

/-- C1 (amended): after any single call of `dispatch_srtcf` returns, on
every input state in which every running and every ready thread has
non-negative `remaining` — which holds in every reachable simulator state —
every thread left in the Ready queue has `remaining` at least that of every
thread bound to a core; and the preemption loop terminates on every input,
within `srtcfMeasure` iterations.  (On inputs with negative `remaining` the
`best_rem = -1` seed of the victim scan can hide a running thread, see the
counterexample.) -/
theorem dispatch_srtcf_spec (cpu : CPU) (ready : List Thread) (now : Int)
    (hc : ∀ t ∈ occupants cpu, 0 ≤ t.remaining)
    (hr : ∀ t ∈ ready, 0 ≤ t.remaining) :
    (srtcfLoop (srtcfMeasure cpu ready + 1) cpu ready now).isSome ∧
    ∀ R ∈ (dispatch_srtcf cpu ready now).2,
      ∀ T ∈ occupants (dispatch_srtcf cpu ready now).1,
        T.remaining ≤ R.remaining := by
  constructor
  · exact srtcfLoop_isSome _ cpu ready now (Nat.lt_succ_self _)
  · have hfill := fillLoop_preserve q_pop_min_remaining
      (fun q m r hq => popMinBy_perm (fun t => t.remaining) hq)
      (fun t => 0 ≤ t.remaining) (fun t nw ht => ht)
      ready.length cpu ready now hc hr
    obtain ⟨res, hres⟩ := Option.isSome_iff_exists.mp
      (srtcfLoop_isSome
        (srtcfMeasure (fillLoop q_pop_min_remaining ready.length cpu ready now).1
            (fillLoop q_pop_min_remaining ready.length cpu ready now).2 + 1)
        (fillLoop q_pop_min_remaining ready.length cpu ready now).1
        (fillLoop q_pop_min_remaining ready.length cpu ready now).2 now
        (Nat.lt_succ_self _))
    have hd : dispatch_srtcf cpu ready now = (res.1, res.2.1) := by
      unfold dispatch_srtcf
      simp only [hres]
    rw [hd]
    exact srtcfLoop_nonneg_post _ _ _ now res hres hfill.1 hfill.2

/-- C1 counterexample: the claim quantifies over every input state, but on
threads carrying negative `remaining` the `best_rem = -1` seed of
`core_with_largest_remaining_above` hides the running thread from the
victim scan: after the call the ready queue holds a thread with remaining
-5 while a thread with remaining -3 stays bound, violating
`R.remaining ≥ T.remaining`. -/
theorem dispatch_srtcf_post_fails_on_negative_remaining :
    ¬ (∀ R ∈ (dispatch_srtcf [some ⟨1, 0, 5, -3, TState.Running, -1, 0, -1, 0⟩]
          [⟨2, 0, 5, -5, TState.Ready, -1, -1, -1, 0⟩] 0).2,
        ∀ T ∈ occupants (dispatch_srtcf [some ⟨1, 0, 5, -3, TState.Running, -1, 0, -1, 0⟩]
          [⟨2, 0, 5, -5, TState.Ready, -1, -1, -1, 0⟩] 0).1,
          T.remaining ≤ R.remaining) := by decide

/-- Witness for the amended C1 theorem at a concrete input: one idle core
and one fresh ready thread of burst 3. -/
theorem dispatch_srtcf_spec_witness :
    (∀ t ∈ occupants ([none] : CPU), 0 ≤ t.remaining) ∧
    (∀ t ∈ [make_thread 1 0 3], 0 ≤ t.remaining) ∧
    ((srtcfLoop (srtcfMeasure [none] [make_thread 1 0 3] + 1)
        [none] [make_thread 1 0 3] 0).isSome ∧
      ∀ R ∈ (dispatch_srtcf [none] [make_thread 1 0 3] 0).2,
        ∀ T ∈ occupants (dispatch_srtcf [none] [make_thread 1 0 3] 0).1,
          T.remaining ≤ R.remaining) :=
  ⟨by decide, by decide,
    dispatch_srtcf_spec [none] [make_thread 1 0 3] 0 (by decide) (by decide)⟩

/-- C8 (amended): every terminating run of the SRTCF preemption phase exits
in exactly one of two ways: through the empty-ready branch (the popped
candidate is `none`, exit flag `false`, final ready queue empty), or
through the no-victim branch (exit flag `true`): the candidate — the
then-minimal ready thread — is pushed back onto the Ready queue with all of
its fields unchanged, at a point where no core is idle and no running core
has `remaining` strictly above the candidate's. -/
theorem srtcf_preempt_exit (fuel : Nat) (cpu : CPU) (ready : List Thread)
    (now : Int) (res : CPU × List Thread × Bool)
    (h : srtcfLoop fuel cpu ready now = some res) :
    (res.2.2 = false ∧ res.2.1 = []) ∨
    (res.2.2 = true ∧ ∃ best rest,
      res.2.1 = q_push rest best ∧
      (∀ x ∈ rest, best.remaining ≤ x.remaining) ∧
      cpu_first_idle res.1 = none ∧
      core_with_largest_remaining_above res.1 best.remaining = none) :=
  srtcfLoop_exit_shape fuel cpu ready now res h

/-- C8 counterexample: with an occupied core and an empty ready queue, the
preemption phase terminates through the `if (!best) break` branch (exit
flag `false`), not through the no-victim push-back branch — so the
no-victim case is not the only exit condition of the loop. -/
theorem srtcf_preempt_exits_without_candidate :
    (srtcfLoop 1 [some ⟨1, 0, 5, 5, TState.Running, -1, 0, -1, 0⟩] [] 0).isSome ∧
    (srtcfLoop 1 [some ⟨1, 0, 5, 5, TState.Running, -1, 0, -1, 0⟩] [] 0).map
        (fun r => r.2.2) ≠ some true := by decide

/-- Witness for the amended C8 theorem at a concrete input: a single busy
core (remaining 5) and one worse ready candidate (remaining 9) make the
loop exit through the no-victim branch. -/
theorem srtcf_preempt_exit_witness :
    srtcfLoop 1 [some ⟨1, 0, 5, 5, TState.Running, -1, 0, -1, 0⟩]
        [⟨2, 0, 9, 9, TState.Ready, -1, -1, -1, 0⟩] 0 =
      some ([some ⟨1, 0, 5, 5, TState.Running, -1, 0, -1, 0⟩],
        [⟨2, 0, 9, 9, TState.Ready, -1, -1, -1, 0⟩], true) ∧
    ((((([some ⟨1, 0, 5, 5, TState.Running, -1, 0, -1, 0⟩],
        ([⟨2, 0, 9, 9, TState.Ready, -1, -1, -1, 0⟩], true)) :
          CPU × List Thread × Bool)).2.2 = false ∧
      (([some ⟨1, 0, 5, 5, TState.Running, -1, 0, -1, 0⟩],
        ([⟨2, 0, 9, 9, TState.Ready, -1, -1, -1, 0⟩], true)) :
          CPU × List Thread × Bool).2.1 = []) ∨
    ((([some ⟨1, 0, 5, 5, TState.Running, -1, 0, -1, 0⟩],
        ([⟨2, 0, 9, 9, TState.Ready, -1, -1, -1, 0⟩], true)) :
          CPU × List Thread × Bool).2.2 = true ∧
      ∃ best rest,
        (([some ⟨1, 0, 5, 5, TState.Running, -1, 0, -1, 0⟩],
          ([⟨2, 0, 9, 9, TState.Ready, -1, -1, -1, 0⟩], true)) :
            CPU × List Thread × Bool).2.1 = q_push rest best ∧
        (∀ x ∈ rest, best.remaining ≤ x.remaining) ∧
        cpu_first_idle (([some ⟨1, 0, 5, 5, TState.Running, -1, 0, -1, 0⟩],
          ([⟨2, 0, 9, 9, TState.Ready, -1, -1, -1, 0⟩], true)) :
            CPU × List Thread × Bool).1 = none ∧
        core_with_largest_remaining_above
          (([some ⟨1, 0, 5, 5, TState.Running, -1, 0, -1, 0⟩],
            ([⟨2, 0, 9, 9, TState.Ready, -1, -1, -1, 0⟩], true)) :
              CPU × List Thread × Bool).1 best.remaining = none)) :=
  ⟨by decide,
    srtcf_preempt_exit 1 [some ⟨1, 0, 5, 5, TState.Running, -1, 0, -1, 0⟩]
      [⟨2, 0, 9, 9, TState.Ready, -1, -1, -1, 0⟩] 0
      ([some ⟨1, 0, 5, 5, TState.Running, -1, 0, -1, 0⟩],
        ([⟨2, 0, 9, 9, TState.Ready, -1, -1, -1, 0⟩], true)) (by decide)⟩

/-- C9: the random-interrupt subsystem changes only placement, never
progress: every thread in the waiting queue after `random_interrupts` is
either one of the previously waiting threads, verbatim, or a previously
running thread whose `remaining`, `burst_time`, `start_time` and
`wait_time` are exactly as before (only `state` and `unblocked_at` having
changed); and every thread still bound afterwards was bound before,
verbatim. -/
theorem random_interrupts_frame (enabled : Bool) (oracle : Nat → Option Int)
    (cpu : CPU) (waiting : List Thread) (now : Int) :
    (∀ t' ∈ (random_interrupts enabled oracle cpu waiting now).2,
        t' ∈ waiting ∨
          ∃ t ∈ occupants cpu,
            t'.tid = t.tid ∧ t'.remaining = t.remaining ∧
            t'.burst_time = t.burst_time ∧ t'.start_time = t.start_time ∧
            t'.wait_time = t.wait_time ∧ t'.state = TState.Waiting) ∧
    (∀ t' ∈ occupants (random_interrupts enabled oracle cpu waiting now).1,
        t' ∈ occupants cpu) := by
  cases enabled with
  | false => exact ⟨fun t' ht' => Or.inl ht', fun t' ht' => ht'⟩
  | true =>
    have hs := interruptsAux_spec oracle now cpu 0 waiting
    constructor
    · intro t' ht'
      rcases hs.1 t' ht' with h1 | ⟨t, ht, u, hu⟩
      · exact Or.inl h1
      · subst hu
        exact Or.inr ⟨t, ht, rfl, rfl, rfl, rfl, rfl, rfl⟩
    · exact hs.2

/-- Witness for the C9 theorem at a concrete input: one running thread, an
oracle that always interrupts with duration 3. -/
theorem random_interrupts_frame_witness :
    (∀ t' ∈ (random_interrupts true (fun _ => some 3)
        [some ⟨1, 0, 5, 4, TState.Running, -1, 0, -1, 2⟩] [] 0).2,
        t' ∈ ([] : List Thread) ∨
          ∃ t ∈ occupants [some ⟨1, 0, 5, 4, TState.Running, -1, 0, -1, 2⟩],
            t'.tid = t.tid ∧ t'.remaining = t.remaining ∧
            t'.burst_time = t.burst_time ∧ t'.start_time = t.start_time ∧
            t'.wait_time = t.wait_time ∧ t'.state = TState.Waiting) ∧
    (∀ t' ∈ occupants (random_interrupts true (fun _ => some 3)
        [some ⟨1, 0, 5, 4, TState.Running, -1, 0, -1, 2⟩] [] 0).1,
        t' ∈ occupants [some ⟨1, 0, 5, 4, TState.Running, -1, 0, -1, 2⟩]) :=
  random_interrupts_frame true (fun _ => some 3)
    [some ⟨1, 0, 5, 4, TState.Running, -1, 0, -1, 2⟩] [] 0

end SchedSim

namespace SchedSim

theorem coe_map_eq {α β : Type} (f : α → β) (l : List α) :
    Multiset.map f ↑l = ↑(l.map f) := rfl

theorem splitMove_key {α : Type} (g : Thread → α) (f : Thread → Thread)
    (hg : ∀ t, g (f t) = g t) (p : Thread → Bool) (src dst : List Thread) :
    ((src.filter (fun t => !(p t))).map g : Multiset α) +
      ↑((dst ++ (src.filter p).map f).map g) =
    ↑(src.map g) + ↑(dst.map g) := by
  rw [List.map_append, ← Multiset.coe_add, List.map_map]
  have hcomp : (src.filter p).map (g ∘ f) = (src.filter p).map g :=
    List.map_congr_left (fun a _ => hg a)
  rw [hcomp]
  have hpart : ((src.filter (fun t => !(p t))).map g : Multiset α) +
      ↑((src.filter p).map g) = ↑(src.map g) := by
    have hperm : (src.filter p ++ src.filter (fun t => !(p t))).Perm src :=
      List.filter_append_perm p src
    have h1 : ((src.filter p ++ src.filter (fun t => !(p t))).map g : Multiset α) =
        ↑(src.map g) := Multiset.coe_eq_coe.mpr (hperm.map g)
    rw [List.map_append, ← Multiset.coe_add] at h1
    rw [← h1]
    exact add_comm _ _
  rw [← hpart]
  abel

theorem occupants_set_map {α : Type} (g : Thread → α) {l : CPU} {i : Nat}
    {o : Option Thread} (x : Option Thread) (h : l.get? i = some o) :
    (((occupants (l.set i x)).map g : Multiset α)) + ↑(o.toList.map g) =
      ↑((occupants l).map g) + ↑(x.toList.map g) := by
  have hm := occupants_set l i o x h
  have h2 := congrArg (Multiset.map g) hm
  simp only [Multiset.map_add, coe_map_eq] at h2
  exact h2

theorem occupants_map_commute (f : Thread → Thread) (l : CPU) :
    occupants (l.map (Option.map f)) = (occupants l).map f := by
  induction l with
  | nil => rfl
  | cons a rest ih =>
    cases a with
    | none => simpa [occupants_cons, Option.toList] using ih
    | some t => simpa [occupants_cons, Option.toList] using ih

theorem occupants_replicate_none (n : Nat) :
    occupants (List.replicate n none) = [] := by
  induction n with
  | zero => rfl
  | succ k ih => simpa [List.replicate, occupants_cons, Option.toList] using ih

end SchedSim

namespace SchedSim

theorem coe_cons_singleton {α : Type} (a : α) (l : List α) :
    ((a :: l : List α) : Multiset α) = {a} + ↑l := by
  rw [Multiset.singleton_add]
  exact (Multiset.cons_coe a l).symm

theorem interruptsAux_key {α : Type} (g : Thread → α)
    (hg : ∀ t u, g (waitThread t u) = g t)
    (oracle : Nat → Option Int) (now : Int) :
    ∀ (l : CPU) (i : Nat) (w : List Thread),
      ((occupants (interruptsAux oracle now l i w).1).map g : Multiset α) +
        ↑(((interruptsAux oracle now l i w).2).map g) =
      ↑((occupants l).map g) + ↑(w.map g) := by
  intro l
  induction l with
  | nil => intro i w; rfl
  | cons a rest ih =>
    intro i w
    cases a with
    | none =>
      have e1 : (interruptsAux oracle now (none :: rest) i w).1 =
          none :: (interruptsAux oracle now rest (i + 1) w).1 := rfl
      have e2 : (interruptsAux oracle now (none :: rest) i w).2 =
          (interruptsAux oracle now rest (i + 1) w).2 := rfl
      rw [e1, e2, occupants_cons]
      simp only [Option.toList, List.nil_append]
      rw [occupants_cons]
      simp only [Option.toList, List.nil_append]
      exact ih (i + 1) w
    | some t =>
      cases ho : oracle i with
      | some dur =>
        have e1 : (interruptsAux oracle now (some t :: rest) i w).1 =
            none :: (interruptsAux oracle now rest (i + 1)
              (q_push w (waitThread t (now + dur)))).1 := by
          simp only [interruptsAux, ho]
        have e2 : (interruptsAux oracle now (some t :: rest) i w).2 =
            (interruptsAux oracle now rest (i + 1)
              (q_push w (waitThread t (now + dur)))).2 := by
          simp only [interruptsAux, ho]
        rw [e1, e2, occupants_cons]
        simp only [Option.toList, List.nil_append]
        rw [occupants_cons]
        simp only [Option.toList, List.singleton_append]
        rw [ih (i + 1) (q_push w (waitThread t (now + dur)))]
        unfold q_push
        simp only [List.map_append, List.map_cons, List.map_nil, hg,
          ← Multiset.coe_add, coe_cons_singleton, Multiset.coe_nil]
        abel
      | none =>
        have e1 : (interruptsAux oracle now (some t :: rest) i w).1 =
            some t :: (interruptsAux oracle now rest (i + 1) w).1 := by
          simp only [interruptsAux, ho]
        have e2 : (interruptsAux oracle now (some t :: rest) i w).2 =
            (interruptsAux oracle now rest (i + 1) w).2 := by
          simp only [interruptsAux, ho]
        rw [e1, e2, occupants_cons]
        simp only [Option.toList, List.singleton_append]
        rw [occupants_cons]
        simp only [Option.toList, List.singleton_append]
        simp only [List.map_cons, coe_cons_singleton]
        rw [add_assoc, ih (i + 1) w, ← add_assoc]

theorem random_interrupts_key {α : Type} (g : Thread → α)
    (hg : ∀ t u, g (waitThread t u) = g t)
    (enabled : Bool) (oracle : Nat → Option Int)
    (cpu : CPU) (waiting : List Thread) (now : Int) :
    ((occupants (random_interrupts enabled oracle cpu waiting now).1).map g : Multiset α) +
      ↑(((random_interrupts enabled oracle cpu waiting now).2).map g) =
    ↑((occupants cpu).map g) + ↑(waiting.map g) := by
  cases enabled with
  | false => rfl
  | true => exact interruptsAux_key g hg oracle now cpu 0 waiting

theorem fillLoop_key {α : Type} (g : Thread → α)
    (hgb : ∀ t nw, g (bindThread t nw) = g t)
    (pop : List Thread → Option (Thread × List Thread))
    (hpop : ∀ q m r, pop q = some (m, r) → q.Perm (m :: r)) :
    ∀ (fuel : Nat) (cpu : CPU) (ready : List Thread) (now : Int),
      ((occupants (fillLoop pop fuel cpu ready now).1).map g : Multiset α) +
        ↑(((fillLoop pop fuel cpu ready now).2).map g) =
      ↑((occupants cpu).map g) + ↑(ready.map g) := by
  intro fuel
  induction fuel with
  | zero => intro cpu ready now; rfl
  | succ n ih =>
    intro cpu ready now
    cases hi : cpu_first_idle cpu with
    | none => simp only [fillLoop, hi]
    | some i =>
      cases hp : pop ready with
      | none => simp only [fillLoop, hi, hp]
      | some p =>
        obtain ⟨t, rest⟩ := p
        simp only [fillLoop, hi, hp]
        rw [ih (cpu_bind_core cpu i t now) rest now]
        have hget := cpu_first_idle_get hi
        have hosm := occupants_set_map g (some (bindThread t now)) hget
        simp only [Option.toList, List.map_nil, List.map_cons, hgb,
          Multiset.coe_nil, coe_cons_singleton, add_zero] at hosm
        have ha : ((occupants (cpu_bind_core cpu i t now)).map g : Multiset α) =
            ↑((occupants cpu).map g) + {g t} := by
          unfold cpu_bind_core
          exact hosm
        have hperm : (↑(ready.map g) : Multiset α) = ↑((t :: rest).map g) :=
          Multiset.coe_eq_coe.mpr ((hpop ready t rest hp).map g)
        rw [hperm, ha]
        simp only [List.map_cons, coe_cons_singleton]
        abel

theorem srtcfLoop_key {α : Type} (g : Thread → α)
    (hgb : ∀ t nw, g (bindThread t nw) = g t)
    (hgr : ∀ t, g (readyThread t) = g t) :
    ∀ (fuel : Nat) (cpu : CPU) (ready : List Thread) (now : Int)
      (res : CPU × List Thread × Bool),
      srtcfLoop fuel cpu ready now = some res →
        ((occupants res.1).map g : Multiset α) + ↑((res.2.1).map g) =
          ↑((occupants cpu).map g) + ↑(ready.map g) := by
  intro fuel
  induction fuel with
  | zero => intro cpu ready now res h; simp [srtcfLoop] at h
  | succ n ih =>
    intro cpu ready now res h
    cases hp : q_pop_min_remaining ready with
    | none =>
      simp only [srtcfLoop, hp] at h
      have hres := Option.some.inj h
      subst hres
      rfl
    | some p =>
      obtain ⟨best, rest⟩ := p
      have hp2 : popMinBy (fun t => t.remaining) ready = some (best, rest) := hp
      have hperm : (↑(ready.map g) : Multiset α) = ↑((best :: rest).map g) :=
        Multiset.coe_eq_coe.mpr ((popMinBy_perm _ hp2).map g)
      cases hi : cpu_first_idle cpu with
      | some idle =>
        simp only [srtcfLoop, hp, hi] at h
        rw [ih _ _ now res h]
        have hget := cpu_first_idle_get hi
        have hosm := occupants_set_map g (some (bindThread best now)) hget
        simp only [Option.toList, List.map_nil, List.map_cons, hgb,
          Multiset.coe_nil, coe_cons_singleton, add_zero] at hosm
        have ha : ((occupants (cpu_bind_core cpu idle best now)).map g : Multiset α) =
            ↑((occupants cpu).map g) + {g best} := by
          unfold cpu_bind_core
          exact hosm
        rw [hperm, ha]
        simp only [List.map_cons, coe_cons_singleton]
        abel
      | none =>
        cases hv : core_with_largest_remaining_above cpu best.remaining with
        | none =>
          simp only [srtcfLoop, hp, hi, hv] at h
          have hres := Option.some.inj h
          subst hres
          show ((occupants cpu).map g : Multiset α) + ↑((q_push rest best).map g) =
            ↑((occupants cpu).map g) + ↑(ready.map g)
          rw [hperm]
          unfold q_push
          simp only [List.map_append, List.map_cons, List.map_nil,
            ← Multiset.coe_add, coe_cons_singleton, Multiset.coe_nil]
          abel
        | some victim =>
          simp only [srtcfLoop, hp, hi, hv] at h
          obtain ⟨vt, hvt, hbv⟩ := cwlra_some hv
          have hpr : preempt_to_ready cpu victim rest =
              (cpu.set victim none, q_push rest (readyThread vt)) := by
            unfold preempt_to_ready
            rw [hvt]
          rw [hpr] at h
          have hset : cpu_bind_core (cpu.set victim none) victim best now =
              cpu.set victim (some (bindThread best now)) := by
            unfold cpu_bind_core
            exact List.set_set _ _ _ _
          simp only [hset] at h
          rw [ih _ _ now res h]
          have hvic_lt : victim < cpu.length := get?_lt_length hvt
          have hget1 : (cpu.set victim none).get? victim = some none :=
            get?_set_self _ _ _ (by simpa using hvic_lt)
          have s1 := occupants_set_map g (none : Option Thread) hvt
          simp only [Option.toList, List.map_nil, List.map_cons,
            Multiset.coe_nil, coe_cons_singleton, add_zero] at s1
          have s2 := occupants_set_map g (some (bindThread best now)) hget1
          rw [List.set_set] at s2
          simp only [Option.toList, List.map_nil, List.map_cons, hgb,
            Multiset.coe_nil, coe_cons_singleton, add_zero] at s2
          have hready' : (↑((q_push rest (readyThread vt)).map g) : Multiset α) =
              ↑(rest.map g) + {g vt} := by
            unfold q_push
            simp only [List.map_append, List.map_cons, List.map_nil, hgr,
              ← Multiset.coe_add, coe_cons_singleton, Multiset.coe_nil, add_zero]
          rw [hready', s2, ← s1, hperm]
          simp only [List.map_cons, coe_cons_singleton]
          abel

end SchedSim

namespace SchedSim

theorem dispatch_srtcf_eq (cpu : CPU) (ready : List Thread) (now : Int) :
    ∃ res,
      srtcfLoop
        (srtcfMeasure (fillLoop q_pop_min_remaining ready.length cpu ready now).1
            (fillLoop q_pop_min_remaining ready.length cpu ready now).2 + 1)
        (fillLoop q_pop_min_remaining ready.length cpu ready now).1
        (fillLoop q_pop_min_remaining ready.length cpu ready now).2 now = some res ∧
      dispatch_srtcf cpu ready now = (res.1, res.2.1) := by
  obtain ⟨res, hres⟩ := Option.isSome_iff_exists.mp
    (srtcfLoop_isSome _
      (fillLoop q_pop_min_remaining ready.length cpu ready now).1
      (fillLoop q_pop_min_remaining ready.length cpu ready now).2 now
      (Nat.lt_succ_self _))
  refine ⟨res, hres, ?_⟩
  unfold dispatch_srtcf
  simp only [hres]

theorem dispatch_key {α : Type} (g : Thread → α)
    (hgb : ∀ t nw, g (bindThread t nw) = g t)
    (hgr : ∀ t, g (readyThread t) = g t)
    (pol : Policy) (cpu : CPU) (ready : List Thread) (now : Int) :
    ((occupants (dispatch pol cpu ready now).1).map g : Multiset α) +
      ↑(((dispatch pol cpu ready now).2).map g) =
    ↑((occupants cpu).map g) + ↑(ready.map g) := by
  cases pol with
  | fifo =>
    exact fillLoop_key g hgb q_pop (fun q m r h => q_pop_perm h) ready.length cpu ready now
  | sjf =>
    exact fillLoop_key g hgb q_pop_min_burst
      (fun q m r h => popMinBy_perm (fun t => t.burst_time) h) ready.length cpu ready now
  | srtcf =>
    obtain ⟨res, hres, hd⟩ := dispatch_srtcf_eq cpu ready now
    have hgoal : dispatch Policy.srtcf cpu ready now = (res.1, res.2.1) := hd
    rw [hgoal]
    have hloop := srtcfLoop_key g hgb hgr _ _ _ now res hres
    have hfill := fillLoop_key g hgb q_pop_min_remaining
      (fun q m r h => popMinBy_perm (fun t => t.remaining) h) ready.length cpu ready now
    calc ((occupants (res.1, res.2.1).1).map g : Multiset α) +
          ↑(((res.1, res.2.1).2).map g)
        = ((occupants res.1).map g : Multiset α) + ↑((res.2.1).map g) := rfl
      _ = ↑((occupants (fillLoop q_pop_min_remaining ready.length cpu ready now).1).map g) +
          ↑(((fillLoop q_pop_min_remaining ready.length cpu ready now).2).map g) := hloop
      _ = ↑((occupants cpu).map g) + ↑(ready.map g) := hfill

theorem collectAux_key {α : Type} (g : Thread → α)
    (hgf : ∀ t nw, g (finishThread t nw) = g t) (now : Int) :
    ∀ (l : CPU) (fin : List Thread),
      ((occupants (collectAux now l fin).1).map g : Multiset α) +
        ↑(((collectAux now l fin).2).map g) =
      ↑((occupants l).map g) + ↑(fin.map g) := by
  intro l
  induction l with
  | nil => intro fin; rfl
  | cons a rest ih =>
    intro fin
    cases a with
    | none =>
      have e1 : (collectAux now (none :: rest) fin).1 =
          none :: (collectAux now rest fin).1 := rfl
      have e2 : (collectAux now (none :: rest) fin).2 =
          (collectAux now rest fin).2 := rfl
      rw [e1, e2, occupants_cons]
      simp only [Option.toList, List.nil_append]
      rw [occupants_cons]
      simp only [Option.toList, List.nil_append]
      exact ih fin
    | some t =>
      cases hz : (t.remaining == 0) with
      | true =>
        have e1 : (collectAux now (some t :: rest) fin).1 =
            none :: (collectAux now rest (q_push fin (finishThread t now))).1 := by
          simp only [collectAux, hz]
          rfl
        have e2 : (collectAux now (some t :: rest) fin).2 =
            (collectAux now rest (q_push fin (finishThread t now))).2 := by
          simp only [collectAux, hz]
          rfl
        rw [e1, e2, occupants_cons]
        simp only [Option.toList, List.nil_append]
        rw [occupants_cons]
        simp only [Option.toList, List.singleton_append]
        rw [ih (q_push fin (finishThread t now))]
        unfold q_push
        simp only [List.map_append, List.map_cons, List.map_nil, hgf,
          ← Multiset.coe_add, coe_cons_singleton, Multiset.coe_nil]
        abel
      | false =>
        have e1 : (collectAux now (some t :: rest) fin).1 =
            some t :: (collectAux now rest fin).1 := by
          simp only [collectAux, hz]
          rfl
        have e2 : (collectAux now (some t :: rest) fin).2 =
            (collectAux now rest fin).2 := by
          simp only [collectAux, hz]
          rfl
        rw [e1, e2, occupants_cons]
        simp only [Option.toList, List.singleton_append]
        rw [occupants_cons]
        simp only [Option.toList, List.singleton_append]
        simp only [List.map_cons, coe_cons_singleton]
        rw [add_assoc, ih fin, ← add_assoc]

theorem bump_key {α : Type} (g : Thread → α)
    (hg : ∀ t, g (bumpThread t) = g t) (r : List Thread) :
    (bump_queue_wait r).map g = r.map g := by
  unfold bump_queue_wait
  rw [List.map_map]
  exact List.map_congr_left (fun a _ => hg a)

theorem step_key {α : Type} (g : Thread → α)
    (hg : ∀ t, g (stepThread t) = g t) (cpu : CPU) :
    (occupants (cpu_step_cores cpu)).map g = (occupants cpu).map g := by
  unfold cpu_step_cores
  rw [occupants_map_commute, List.map_map]
  exact List.map_congr_left (fun a _ => hg a)

theorem admit_key {α : Type} (g : Thread → α)
    (hgr : ∀ t, g (readyThread t) = g t) (w r : List Thread) (now : Int) :
    (((workload_admit_tick w r now).1).map g : Multiset α) +
      ↑(((workload_admit_tick w r now).2).map g) =
    ↑(w.map g) + ↑(r.map g) := by
  unfold workload_admit_tick
  exact splitMove_key g readyThread hgr (fun t => t.arrival_time == now) w r

theorem resolve_key {α : Type} (g : Thread → α)
    (hgr : ∀ t, g (readyThread t) = g t) (waiting r : List Thread) (now : Int) :
    (((waiting_io_resolve waiting r now).1).map g : Multiset α) +
      ↑(((waiting_io_resolve waiting r now).2).map g) =
    ↑(waiting.map g) + ↑(r.map g) := by
  unfold waiting_io_resolve
  exact splitMove_key g readyThread hgr (fun t => t.unblocked_at == now) waiting r

end SchedSim

namespace SchedSim

theorem tick_key {α : Type} [DecidableEq α] (g : Thread → α)
    (hgr : ∀ t, g (readyThread t) = g t)
    (hgw : ∀ t u, g (waitThread t u) = g t)
    (hgb : ∀ t nw, g (bindThread t nw) = g t)
    (hgs : ∀ t, g (stepThread t) = g t)
    (hgf : ∀ t nw, g (finishThread t nw) = g t)
    (hgu : ∀ t, g (bumpThread t) = g t)
    (cfg : SimConfig) (s : SimState) :
    (((allThreads (tick cfg s)).map g : Multiset α)) = ↑((allThreads s).map g) := by
  have hw : (tick cfg s).workload = (workload_admit_tick s.workload s.ready s.time).1 := rfl
  have hr : (tick cfg s).ready =
      bump_queue_wait
        (dispatch cfg.pol
          (random_interrupts cfg.intrEnabled (cfg.oracle s.time) s.cores
            (waiting_io_resolve s.waiting
              (workload_admit_tick s.workload s.ready s.time).2 s.time).1 s.time).1
          (waiting_io_resolve s.waiting
            (workload_admit_tick s.workload s.ready s.time).2 s.time).2 s.time).2 := rfl
  have hww : (tick cfg s).waiting =
      (random_interrupts cfg.intrEnabled (cfg.oracle s.time) s.cores
        (waiting_io_resolve s.waiting
          (workload_admit_tick s.workload s.ready s.time).2 s.time).1 s.time).2 := rfl
  have hc : (tick cfg s).cores =
      (collectAux (s.time + 1)
        (cpu_step_cores
          (dispatch cfg.pol
            (random_interrupts cfg.intrEnabled (cfg.oracle s.time) s.cores
              (waiting_io_resolve s.waiting
                (workload_admit_tick s.workload s.ready s.time).2 s.time).1 s.time).1
            (waiting_io_resolve s.waiting
              (workload_admit_tick s.workload s.ready s.time).2 s.time).2 s.time).1)
        s.finished).1 := rfl
  have hf : (tick cfg s).finished =
      (collectAux (s.time + 1)
        (cpu_step_cores
          (dispatch cfg.pol
            (random_interrupts cfg.intrEnabled (cfg.oracle s.time) s.cores
              (waiting_io_resolve s.waiting
                (workload_admit_tick s.workload s.ready s.time).2 s.time).1 s.time).1
            (waiting_io_resolve s.waiting
              (workload_admit_tick s.workload s.ready s.time).2 s.time).2 s.time).1)
        s.finished).2 := rfl
  unfold allThreads
  rw [hw, hr, hww, hc, hf]
  simp only [List.map_append, ← Multiset.coe_add]
  rw [bump_key g hgu]
  apply Multiset.ext.mpr
  intro x
  have e1 := congrArg (Multiset.count x)
    (admit_key g hgr s.workload s.ready s.time)
  have e2 := congrArg (Multiset.count x)
    (resolve_key g hgr s.waiting
      (workload_admit_tick s.workload s.ready s.time).2 s.time)
  have e3 := congrArg (Multiset.count x)
    (random_interrupts_key g hgw cfg.intrEnabled (cfg.oracle s.time) s.cores
      (waiting_io_resolve s.waiting
        (workload_admit_tick s.workload s.ready s.time).2 s.time).1 s.time)
  have e4 := congrArg (Multiset.count x)
    (dispatch_key g hgb hgr cfg.pol
      (random_interrupts cfg.intrEnabled (cfg.oracle s.time) s.cores
        (waiting_io_resolve s.waiting
          (workload_admit_tick s.workload s.ready s.time).2 s.time).1 s.time).1
      (waiting_io_resolve s.waiting
        (workload_admit_tick s.workload s.ready s.time).2 s.time).2 s.time)
  have e7 := congrArg (Multiset.count x)
    (collectAux_key g hgf (s.time + 1)
      (cpu_step_cores
        (dispatch cfg.pol
          (random_interrupts cfg.intrEnabled (cfg.oracle s.time) s.cores
            (waiting_io_resolve s.waiting
              (workload_admit_tick s.workload s.ready s.time).2 s.time).1 s.time).1
          (waiting_io_resolve s.waiting
            (workload_admit_tick s.workload s.ready s.time).2 s.time).2 s.time).1)
      s.finished)
  rw [step_key g hgs] at e7
  simp only [Multiset.count_add] at e1 e2 e3 e4 e7 ⊢
  omega

theorem simSteps_key {α : Type} [DecidableEq α] (g : Thread → α)
    (hgr : ∀ t, g (readyThread t) = g t)
    (hgw : ∀ t u, g (waitThread t u) = g t)
    (hgb : ∀ t nw, g (bindThread t nw) = g t)
    (hgs : ∀ t, g (stepThread t) = g t)
    (hgf : ∀ t nw, g (finishThread t nw) = g t)
    (hgu : ∀ t, g (bumpThread t) = g t)
    (cfg : SimConfig) :
    ∀ (n : Nat) (s : SimState),
      (((allThreads (simSteps cfg n s)).map g : Multiset α)) = ↑((allThreads s).map g) := by
  intro n
  induction n with
  | zero => intro s; rfl
  | succ k ih =>
    intro s
    show (((allThreads (simSteps cfg k (tick cfg s))).map g : Multiset α)) = _
    rw [ih (tick cfg s)]
    exact tick_key g hgr hgw hgb hgs hgf hgu cfg s

theorem initState_key {α : Type} (g : Thread → α)
    (hgr : ∀ t, g (readyThread t) = g t) (wl : List Thread) (ncores : Nat) :
    (((allThreads (initState wl ncores)).map g : Multiset α)) = ↑(wl.map g) := by
  unfold initState allThreads
  simp only [List.map_append, ← Multiset.coe_add]
  rw [occupants_replicate_none]
  have := admit_key g hgr wl [] 0
  simp only [List.map_nil, Multiset.coe_nil, add_zero] at this ⊢
  exact this

end SchedSim

namespace SchedSim

/-- C2: at every tick boundary of the simulation, every constructed thread
is present in exactly one of the workload (New) queue, the Ready queue, the
Waiting queue, a core slot, or the Finished queue: given pairwise distinct
thread ids, each id occurs exactly once in the concatenation of those five
places, at every boundary — never twice, never zero times. -/
theorem thread_partition_invariant (cfg : SimConfig) (wl : List Thread)
    (ncores : Nat) (h : (wl.map Thread.tid).Nodup) (n : Nat) :
    ∀ x ∈ wl.map Thread.tid,
      ((allThreads (simSteps cfg n (initState wl ncores))).map Thread.tid).count x = 1 := by
  intro x hx
  have hkey := simSteps_key Thread.tid (fun t => rfl) (fun t u => rfl)
    (fun t nw => rfl) (fun t => rfl) (fun t nw => rfl) (fun t => rfl)
    cfg n (initState wl ncores)
  rw [initState_key Thread.tid (fun t => rfl) wl ncores] at hkey
  have hcnt := congrArg (Multiset.count x) hkey
  rw [Multiset.coe_count, Multiset.coe_count] at hcnt
  rw [hcnt]
  exact List.count_eq_one_of_mem h hx

/-- Witness for the C2 theorem: the preset workload (distinct ids 1..4) on
one core under FIFO, three ticks in, thread id 1 occurs exactly once. -/
theorem thread_partition_invariant_witness :
    ((presetWorkload.map Thread.tid).Nodup ∧
      (1 : Int) ∈ presetWorkload.map Thread.tid) ∧
    ((allThreads (simSteps (quietCfg Policy.fifo) 3
        (initState presetWorkload 1))).map Thread.tid).count 1 = 1 :=
  ⟨⟨by decide, by decide⟩,
    thread_partition_invariant (quietCfg Policy.fifo) presetWorkload 1
      (by decide) 3 1 (by decide)⟩

end SchedSim

namespace SchedSim

theorem evolves_refl (t : Thread) : Evolves t t :=
  ⟨rfl, le_refl _, le_refl _, fun _ => rfl, fun _ => rfl⟩

theorem evolves_trans {a b c : Thread} (h1 : Evolves a b) (h2 : Evolves b c) :
    Evolves a c := by
  obtain ⟨i1, r1, w1, s1, f1⟩ := h1
  obtain ⟨i2, r2, w2, s2, f2⟩ := h2
  refine ⟨i2.trans i1, le_trans r2 r1, le_trans w1 w2, ?_, ?_⟩
  · intro h
    have hb := s1 h
    rw [s2 (hb ▸ h), hb]
  · intro h
    have hb := f1 h
    rw [f2 (hb ▸ h), hb]

theorem evolves_ready (t : Thread) : Evolves t (readyThread t) :=
  ⟨rfl, le_refl _, le_refl _, fun _ => rfl, fun _ => rfl⟩

theorem evolves_wait (t : Thread) (u : Int) : Evolves t (waitThread t u) :=
  ⟨rfl, le_refl _, le_refl _, fun _ => rfl, fun _ => rfl⟩

theorem evolves_bump (t : Thread) : Evolves t (bumpThread t) :=
  ⟨rfl, le_refl _, by show t.wait_time ≤ t.wait_time + 1; omega, fun _ => rfl,
    fun _ => rfl⟩

theorem evolves_bind (t : Thread) (nw : Int) : Evolves t (bindThread t nw) := by
  refine ⟨rfl, le_refl _, le_refl _, fun h => ?_, fun _ => rfl⟩
  show (if t.start_time < 0 then nw else t.start_time) = t.start_time
  rw [if_neg (not_lt.mpr h)]

theorem evolves_step (t : Thread) (h : 0 ≤ t.remaining) : Evolves t (stepThread t) := by
  refine ⟨rfl, ?_, le_refl _, fun _ => rfl, fun _ => rfl⟩
  show max (t.remaining - 1) 0 ≤ t.remaining
  omega

theorem evolves_finish (t : Thread) (nw : Int) : Evolves t (finishThread t nw) := by
  refine ⟨rfl, le_refl _, le_refl _, fun _ => rfl, fun h => ?_⟩
  show (if t.finish_time < 0 then nw else t.finish_time) = t.finish_time
  rw [if_neg (not_lt.mpr h)]

theorem rel_chain {R : Thread → Thread → Prop}
    (htrans : ∀ a b c, R a b → R b c → R a c)
    {P0 P1 P2 : List Thread}
    (h01 : ∀ y ∈ P1, ∃ z ∈ P0, R z y) (h12 : ∀ y ∈ P2, ∃ z ∈ P1, R z y) :
    ∀ y ∈ P2, ∃ z ∈ P0, R z y := by
  intro y hy
  obtain ⟨z1, hz1, hr1⟩ := h12 y hy
  obtain ⟨z0, hz0, hr0⟩ := h01 z1 hz1
  exact ⟨z0, hz0, htrans _ _ _ hr0 hr1⟩

theorem admit_mem_workload {w r : List Thread} {now : Int} :
    ∀ t' ∈ (workload_admit_tick w r now).1, t' ∈ w := by
  intro t' h
  unfold workload_admit_tick at h
  exact (List.mem_filter.mp h).1

theorem admit_mem_ready {w r : List Thread} {now : Int} :
    ∀ t' ∈ (workload_admit_tick w r now).2,
      t' ∈ r ∨ ∃ t ∈ w, t' = readyThread t := by
  intro t' h
  unfold workload_admit_tick at h
  rcases List.mem_append.mp h with h1 | h1
  · exact Or.inl h1
  · obtain ⟨a, ha, hmap⟩ := List.mem_map.mp h1
    exact Or.inr ⟨a, (List.mem_filter.mp ha).1, hmap.symm⟩

theorem resolve_mem_waiting {w r : List Thread} {now : Int} :
    ∀ t' ∈ (waiting_io_resolve w r now).1, t' ∈ w := by
  intro t' h
  unfold waiting_io_resolve at h
  exact (List.mem_filter.mp h).1

theorem resolve_mem_ready {w r : List Thread} {now : Int} :
    ∀ t' ∈ (waiting_io_resolve w r now).2,
      t' ∈ r ∨ ∃ t ∈ w, t' = readyThread t := by
  intro t' h
  unfold waiting_io_resolve at h
  rcases List.mem_append.mp h with h1 | h1
  · exact Or.inl h1
  · obtain ⟨a, ha, hmap⟩ := List.mem_map.mp h1
    exact Or.inr ⟨a, (List.mem_filter.mp ha).1, hmap.symm⟩

theorem random_interrupts_mem (enabled : Bool) (oracle : Nat → Option Int)
    (cpu : CPU) (waiting : List Thread) (now : Int) :
    (∀ t' ∈ occupants (random_interrupts enabled oracle cpu waiting now).1,
        t' ∈ occupants cpu) ∧
    (∀ t' ∈ (random_interrupts enabled oracle cpu waiting now).2,
        t' ∈ waiting ∨ ∃ t ∈ occupants cpu, ∃ u, t' = waitThread t u) := by
  cases enabled with
  | false => exact ⟨fun t' h => h, fun t' h => Or.inl h⟩
  | true =>
    have hs := interruptsAux_spec oracle now cpu 0 waiting
    exact ⟨hs.2, hs.1⟩

theorem collectAux_mem (now : Int) :
    ∀ (l : CPU) (fin : List Thread),
      (∀ t' ∈ occupants (collectAux now l fin).1, t' ∈ occupants l) ∧
      (∀ t' ∈ (collectAux now l fin).2,
          t' ∈ fin ∨ ∃ t ∈ occupants l, t' = finishThread t now) := by
  intro l
  induction l with
  | nil => intro fin; exact ⟨fun t' h => h, fun t' h => Or.inl h⟩
  | cons a rest ih =>
    intro fin
    cases a with
    | none =>
      have e1 : (collectAux now (none :: rest) fin).1 =
          none :: (collectAux now rest fin).1 := rfl
      have e2 : (collectAux now (none :: rest) fin).2 =
          (collectAux now rest fin).2 := rfl
      rw [e1, e2]
      constructor
      · intro t' h
        rw [occupants_cons] at h ⊢
        simp only [Option.toList, List.nil_append] at h ⊢
        exact (ih fin).1 t' h
      · intro t' h
        rcases (ih fin).2 t' h with h1 | ⟨t, ht, he⟩
        · exact Or.inl h1
        · refine Or.inr ⟨t, ?_, he⟩
          rw [occupants_cons]
          exact List.mem_append.mpr (Or.inr ht)
    | some t =>
      cases hz : (t.remaining == 0) with
      | true =>
        have e1 : (collectAux now (some t :: rest) fin).1 =
            none :: (collectAux now rest (q_push fin (finishThread t now))).1 := by
          simp only [collectAux, hz]
          rfl
        have e2 : (collectAux now (some t :: rest) fin).2 =
            (collectAux now rest (q_push fin (finishThread t now))).2 := by
          simp only [collectAux, hz]
          rfl
        rw [e1, e2]
        constructor
        · intro t' h
          rw [occupants_cons] at h ⊢
          simp only [Option.toList, List.nil_append] at h
          simp only [Option.toList, List.singleton_append]
          exact List.mem_cons_of_mem _
            ((ih (q_push fin (finishThread t now))).1 t' h)
        · intro t' h
          rcases (ih (q_push fin (finishThread t now))).2 t' h with h1 | ⟨u, hu, he⟩
          · rcases List.mem_append.mp h1 with h2 | h2
            · exact Or.inl h2
            · simp only [List.mem_singleton] at h2
              refine Or.inr ⟨t, ?_, h2⟩
              rw [occupants_cons]
              simp [Option.toList]
          · refine Or.inr ⟨u, ?_, he⟩
            rw [occupants_cons]
            exact List.mem_append.mpr (Or.inr hu)
      | false =>
        have e1 : (collectAux now (some t :: rest) fin).1 =
            some t :: (collectAux now rest fin).1 := by
          simp only [collectAux, hz]
          rfl
        have e2 : (collectAux now (some t :: rest) fin).2 =
            (collectAux now rest fin).2 := by
          simp only [collectAux, hz]
          rfl
        rw [e1, e2]
        constructor
        · intro t' h
          rw [occupants_cons] at h ⊢
          simp only [Option.toList, List.singleton_append] at h ⊢
          rcases List.mem_cons.mp h with h1 | h1
          · exact List.mem_cons.mpr (Or.inl h1)
          · exact List.mem_cons.mpr (Or.inr ((ih fin).1 t' h1))
        · intro t' h
          rcases (ih fin).2 t' h with h1 | ⟨u, hu, he⟩
          · exact Or.inl h1
          · refine Or.inr ⟨u, ?_, he⟩
            rw [occupants_cons]
            exact List.mem_append.mpr (Or.inr hu)

end SchedSim

namespace SchedSim

theorem fillLoop_rel (R : Thread → Thread → Prop) (hrefl : ∀ t, R t t)
    (htrans : ∀ a b c, R a b → R b c → R a c)
    (hbind : ∀ t nw, R t (bindThread t nw))
    (pop : List Thread → Option (Thread × List Thread))
    (hpop : ∀ q m r, pop q = some (m, r) → q.Perm (m :: r)) :
    ∀ (fuel : Nat) (cpu : CPU) (ready : List Thread) (now : Int),
      ∀ u ∈ occupants (fillLoop pop fuel cpu ready now).1 ++
          (fillLoop pop fuel cpu ready now).2,
        ∃ t ∈ occupants cpu ++ ready, R t u := by
  intro fuel
  induction fuel with
  | zero => intro cpu ready now u hu; exact ⟨u, hu, hrefl u⟩
  | succ n ih =>
    intro cpu ready now u hu
    cases hi : cpu_first_idle cpu with
    | none =>
      simp only [fillLoop, hi] at hu
      exact ⟨u, hu, hrefl u⟩
    | some i =>
      cases hp : pop ready with
      | none =>
        simp only [fillLoop, hi, hp] at hu
        exact ⟨u, hu, hrefl u⟩
      | some p =>
        obtain ⟨t, rest⟩ := p
        simp only [fillLoop, hi, hp] at hu
        obtain ⟨v, hv, hrv⟩ := ih (cpu_bind_core cpu i t now) rest now u hu
        have hperm := hpop ready t rest hp
        have hget := cpu_first_idle_get hi
        rcases List.mem_append.mp hv with h1 | h1
        · rcases mem_occupants_set hget v h1 with h2 | h2
          · exact ⟨v, List.mem_append.mpr (Or.inl h2), hrv⟩
          · simp only [Option.toList, List.mem_singleton] at h2
            subst h2
            refine ⟨t, List.mem_append.mpr (Or.inr ?_), htrans _ _ _ (hbind t now) hrv⟩
            exact hperm.mem_iff.mpr (List.mem_cons_self _ _)
        · refine ⟨v, List.mem_append.mpr (Or.inr ?_), hrv⟩
          exact hperm.mem_iff.mpr (List.mem_cons_of_mem _ h1)

theorem srtcfLoop_rel (R : Thread → Thread → Prop) (hrefl : ∀ t, R t t)
    (htrans : ∀ a b c, R a b → R b c → R a c)
    (hbind : ∀ t nw, R t (bindThread t nw))
    (hready : ∀ t, R t (readyThread t)) :
    ∀ (fuel : Nat) (cpu : CPU) (ready : List Thread) (now : Int)
      (res : CPU × List Thread × Bool),
      srtcfLoop fuel cpu ready now = some res →
        ∀ u ∈ occupants res.1 ++ res.2.1,
          ∃ t ∈ occupants cpu ++ ready, R t u := by
  intro fuel
  induction fuel with
  | zero => intro cpu ready now res h; simp [srtcfLoop] at h
  | succ n ih =>
    intro cpu ready now res h u hu
    cases hp : q_pop_min_remaining ready with
    | none =>
      simp only [srtcfLoop, hp] at h
      have hres := Option.some.inj h
      subst hres
      exact ⟨u, hu, hrefl u⟩
    | some p =>
      obtain ⟨best, rest⟩ := p
      have hp2 : popMinBy (fun t => t.remaining) ready = some (best, rest) := hp
      have hperm := popMinBy_perm (fun t => t.remaining) hp2
      have hbestm : best ∈ ready := hperm.mem_iff.mpr (List.mem_cons_self _ _)
      have hrestm : ∀ x ∈ rest, x ∈ ready := fun x hx =>
        hperm.mem_iff.mpr (List.mem_cons_of_mem _ hx)
      cases hi : cpu_first_idle cpu with
      | some idle =>
        simp only [srtcfLoop, hp, hi] at h
        obtain ⟨v, hv, hrv⟩ := ih _ _ now res h u hu
        have hget := cpu_first_idle_get hi
        rcases List.mem_append.mp hv with h1 | h1
        · rcases mem_occupants_set hget v h1 with h2 | h2
          · exact ⟨v, List.mem_append.mpr (Or.inl h2), hrv⟩
          · simp only [Option.toList, List.mem_singleton] at h2
            subst h2
            exact ⟨best, List.mem_append.mpr (Or.inr hbestm),
              htrans _ _ _ (hbind best now) hrv⟩
        · exact ⟨v, List.mem_append.mpr (Or.inr (hrestm v h1)), hrv⟩
      | none =>
        cases hv : core_with_largest_remaining_above cpu best.remaining with
        | none =>
          simp only [srtcfLoop, hp, hi, hv] at h
          have hres := Option.some.inj h
          subst hres
          rcases List.mem_append.mp hu with h1 | h1
          · exact ⟨u, List.mem_append.mpr (Or.inl h1), hrefl u⟩
          · rcases List.mem_append.mp h1 with h2 | h2
            · exact ⟨u, List.mem_append.mpr (Or.inr (hrestm u h2)), hrefl u⟩
            · simp only [List.mem_singleton] at h2
              subst h2
              exact ⟨u, List.mem_append.mpr (Or.inr hbestm), hrefl u⟩
        | some victim =>
          simp only [srtcfLoop, hp, hi, hv] at h
          obtain ⟨vt, hvt, hbv⟩ := cwlra_some hv
          have hpr : preempt_to_ready cpu victim rest =
              (cpu.set victim none, q_push rest (readyThread vt)) := by
            unfold preempt_to_ready
            rw [hvt]
          rw [hpr] at h
          have hset : cpu_bind_core (cpu.set victim none) victim best now =
              cpu.set victim (some (bindThread best now)) := by
            unfold cpu_bind_core
            exact List.set_set _ _ _ _
          simp only [hset] at h
          obtain ⟨v, hvv, hrv⟩ := ih _ _ now res h u hu
          rcases List.mem_append.mp hvv with h1 | h1
          · rcases mem_occupants_set hvt v h1 with h2 | h2
            · exact ⟨v, List.mem_append.mpr (Or.inl h2), hrv⟩
            · simp only [Option.toList, List.mem_singleton] at h2
              subst h2
              exact ⟨best, List.mem_append.mpr (Or.inr hbestm),
                htrans _ _ _ (hbind best now) hrv⟩
          · rcases List.mem_append.mp h1 with h2 | h2
            · exact ⟨v, List.mem_append.mpr (Or.inr (hrestm v h2)), hrv⟩
            · simp only [List.mem_singleton] at h2
              subst h2
              refine ⟨vt, List.mem_append.mpr (Or.inl (mem_occupants_of_get? hvt)),
                htrans _ _ _ (hready vt) hrv⟩

theorem dispatch_rel (R : Thread → Thread → Prop) (hrefl : ∀ t, R t t)
    (htrans : ∀ a b c, R a b → R b c → R a c)
    (hbind : ∀ t nw, R t (bindThread t nw))
    (hready : ∀ t, R t (readyThread t))
    (pol : Policy) (cpu : CPU) (ready : List Thread) (now : Int) :
    ∀ u ∈ occupants (dispatch pol cpu ready now).1 ++ (dispatch pol cpu ready now).2,
      ∃ t ∈ occupants cpu ++ ready, R t u := by
  cases pol with
  | fifo =>
    exact fillLoop_rel R hrefl htrans hbind q_pop
      (fun q m r h => q_pop_perm h) ready.length cpu ready now
  | sjf =>
    exact fillLoop_rel R hrefl htrans hbind q_pop_min_burst
      (fun q m r h => popMinBy_perm (fun t => t.burst_time) h) ready.length cpu ready now
  | srtcf =>
    obtain ⟨res, hres, hd⟩ := dispatch_srtcf_eq cpu ready now
    have hgoal : dispatch Policy.srtcf cpu ready now = (res.1, res.2.1) := hd
    rw [hgoal]
    intro u hu
    have hloop := srtcfLoop_rel R hrefl htrans hbind hready _ _ _ now res hres u hu
    obtain ⟨v, hv, hrv⟩ := hloop
    have hfill := fillLoop_rel R hrefl htrans hbind q_pop_min_remaining
      (fun q m r h => popMinBy_perm (fun t => t.remaining) h) ready.length cpu ready now
      v hv
    obtain ⟨t, ht, hrt⟩ := hfill
    exact ⟨t, ht, htrans _ _ _ hrt hrv⟩

end SchedSim

namespace SchedSim

theorem mem_allThreads_workload {t : Thread} {s : SimState}
    (h : t ∈ s.workload) : t ∈ allThreads s := by
  unfold allThreads
  simp [List.mem_append, h]

theorem mem_allThreads_ready {t : Thread} {s : SimState}
    (h : t ∈ s.ready) : t ∈ allThreads s := by
  unfold allThreads
  simp [List.mem_append, h]

theorem mem_allThreads_waiting {t : Thread} {s : SimState}
    (h : t ∈ s.waiting) : t ∈ allThreads s := by
  unfold allThreads
  simp [List.mem_append, h]

theorem mem_allThreads_cores {t : Thread} {s : SimState}
    (h : t ∈ occupants s.cores) : t ∈ allThreads s := by
  unfold allThreads
  simp [List.mem_append, h]

theorem mem_allThreads_finished {t : Thread} {s : SimState}
    (h : t ∈ s.finished) : t ∈ allThreads s := by
  unfold allThreads
  simp [List.mem_append, h]

theorem dispatch_stage_rel (R : Thread → Thread → Prop) (hrefl : ∀ t, R t t)
    (htrans : ∀ a b c, R a b → R b c → R a c)
    (hbind : ∀ t nw, R t (bindThread t nw))
    (hready : ∀ t, R t (readyThread t))
    (cfg : SimConfig) (s : SimState) :
    ∀ u ∈ occupants (dispatch cfg.pol
          (random_interrupts cfg.intrEnabled (cfg.oracle s.time) s.cores
            (waiting_io_resolve s.waiting
              (workload_admit_tick s.workload s.ready s.time).2 s.time).1 s.time).1
          (waiting_io_resolve s.waiting
            (workload_admit_tick s.workload s.ready s.time).2 s.time).2 s.time).1 ++
        (dispatch cfg.pol
          (random_interrupts cfg.intrEnabled (cfg.oracle s.time) s.cores
            (waiting_io_resolve s.waiting
              (workload_admit_tick s.workload s.ready s.time).2 s.time).1 s.time).1
          (waiting_io_resolve s.waiting
            (workload_admit_tick s.workload s.ready s.time).2 s.time).2 s.time).2,
      ∃ t ∈ allThreads s, R t u := by
  intro u hu
  obtain ⟨v, hv, hrv⟩ := dispatch_rel R hrefl htrans hbind hready cfg.pol _ _ s.time u hu
  rcases List.mem_append.mp hv with h1 | h1
  · have h2 := (random_interrupts_mem cfg.intrEnabled (cfg.oracle s.time) s.cores _ s.time).1 v h1
    exact ⟨v, mem_allThreads_cores h2, hrv⟩
  · rcases resolve_mem_ready v h1 with h2 | ⟨t, ht, he⟩
    · rcases admit_mem_ready v h2 with h3 | ⟨t, ht, he⟩
      · exact ⟨v, mem_allThreads_ready h3, hrv⟩
      · subst he
        exact ⟨t, mem_allThreads_workload ht, htrans _ _ _ (hready t) hrv⟩
    · subst he
      exact ⟨t, mem_allThreads_waiting ht, htrans _ _ _ (hready t) hrv⟩

theorem tick_rel (R : Thread → Thread → Prop) (hrefl : ∀ t, R t t)
    (htrans : ∀ a b c, R a b → R b c → R a c)
    (hready : ∀ t, R t (readyThread t))
    (hwait : ∀ t u, R t (waitThread t u))
    (hbind : ∀ t nw, R t (bindThread t nw))
    (hbump : ∀ t, R t (bumpThread t))
    (hfin : ∀ t nw, R t (finishThread t nw))
    (cfg : SimConfig) (s : SimState)
    (hstep : ∀ t ∈ occupants (dispatch cfg.pol
          (random_interrupts cfg.intrEnabled (cfg.oracle s.time) s.cores
            (waiting_io_resolve s.waiting
              (workload_admit_tick s.workload s.ready s.time).2 s.time).1 s.time).1
          (waiting_io_resolve s.waiting
            (workload_admit_tick s.workload s.ready s.time).2 s.time).2 s.time).1,
        R t (stepThread t)) :
    ∀ t' ∈ allThreads (tick cfg s), ∃ t ∈ allThreads s, R t t' := by
  have hw : (tick cfg s).workload = (workload_admit_tick s.workload s.ready s.time).1 := rfl
  have hr : (tick cfg s).ready =
      bump_queue_wait
        (dispatch cfg.pol
          (random_interrupts cfg.intrEnabled (cfg.oracle s.time) s.cores
            (waiting_io_resolve s.waiting
              (workload_admit_tick s.workload s.ready s.time).2 s.time).1 s.time).1
          (waiting_io_resolve s.waiting
            (workload_admit_tick s.workload s.ready s.time).2 s.time).2 s.time).2 := rfl
  have hww : (tick cfg s).waiting =
      (random_interrupts cfg.intrEnabled (cfg.oracle s.time) s.cores
        (waiting_io_resolve s.waiting
          (workload_admit_tick s.workload s.ready s.time).2 s.time).1 s.time).2 := rfl
  have hc : (tick cfg s).cores =
      (collectAux (s.time + 1)
        (cpu_step_cores
          (dispatch cfg.pol
            (random_interrupts cfg.intrEnabled (cfg.oracle s.time) s.cores
              (waiting_io_resolve s.waiting
                (workload_admit_tick s.workload s.ready s.time).2 s.time).1 s.time).1
            (waiting_io_resolve s.waiting
              (workload_admit_tick s.workload s.ready s.time).2 s.time).2 s.time).1)
        s.finished).1 := rfl
  have hf : (tick cfg s).finished =
      (collectAux (s.time + 1)
        (cpu_step_cores
          (dispatch cfg.pol
            (random_interrupts cfg.intrEnabled (cfg.oracle s.time) s.cores
              (waiting_io_resolve s.waiting
                (workload_admit_tick s.workload s.ready s.time).2 s.time).1 s.time).1
            (waiting_io_resolve s.waiting
              (workload_admit_tick s.workload s.ready s.time).2 s.time).2 s.time).1)
        s.finished).2 := rfl
  intro t' ht'
  unfold allThreads at ht'
  rw [hw, hr, hww, hc, hf] at ht'
  simp only [List.mem_append] at ht'
  rcases ht' with ((((hW | hR) | hWA) | hOC) | hFI)
  · -- workload
    exact ⟨t', mem_allThreads_workload (admit_mem_workload t' hW), hrefl t'⟩
  · -- ready
    unfold bump_queue_wait at hR
    obtain ⟨u, hu, hbu⟩ := List.mem_map.mp hR
    obtain ⟨t, ht, hrt⟩ := dispatch_stage_rel R hrefl htrans hbind hready cfg s u
      (List.mem_append.mpr (Or.inr hu))
    subst hbu
    exact ⟨t, ht, htrans _ _ _ hrt (hbump u)⟩
  · -- waiting
    rcases (random_interrupts_mem cfg.intrEnabled (cfg.oracle s.time) s.cores _ s.time).2
        t' hWA with h5 | ⟨t, ht, u, he⟩
    · exact ⟨t', mem_allThreads_waiting (resolve_mem_waiting t' h5), hrefl t'⟩
    · subst he
      exact ⟨t, mem_allThreads_cores ht, hwait t u⟩
  · -- cores
    have h5 := (collectAux_mem (s.time + 1) _ s.finished).1 t' hOC
    rw [cpu_step_cores, occupants_map_commute] at h5
    obtain ⟨u, hu, hsu⟩ := List.mem_map.mp h5
    obtain ⟨t, ht, hrt⟩ := dispatch_stage_rel R hrefl htrans hbind hready cfg s u
      (List.mem_append.mpr (Or.inl hu))
    subst hsu
    exact ⟨t, ht, htrans _ _ _ hrt (hstep u hu)⟩
  · -- finished
    rcases (collectAux_mem (s.time + 1) _ s.finished).2 t' hFI with h2 | ⟨u', hu', he⟩
    · exact ⟨t', mem_allThreads_finished h2, hrefl t'⟩
    · rw [cpu_step_cores, occupants_map_commute] at hu'
      obtain ⟨u, hu, hsu⟩ := List.mem_map.mp hu'
      obtain ⟨t, ht, hrt⟩ := dispatch_stage_rel R hrefl htrans hbind hready cfg s u
        (List.mem_append.mpr (Or.inl hu))
      subst he
      subst hsu
      exact ⟨t, ht, htrans _ _ _ (htrans _ _ _ hrt (hstep u hu)) (hfin _ _)⟩

end SchedSim

namespace SchedSim

theorem tick_nonneg (cfg : SimConfig) (s : SimState)
    (h : ∀ t ∈ allThreads s, 0 ≤ t.remaining) :
    ∀ t' ∈ allThreads (tick cfg s), 0 ≤ t'.remaining := by
  intro t' ht'
  obtain ⟨t, ht, hr⟩ := tick_rel (fun a b => 0 ≤ a.remaining → 0 ≤ b.remaining)
    (fun t => id) (fun a b c h1 h2 ha => h2 (h1 ha))
    (fun t hh => hh) (fun t u hh => hh) (fun t nw hh => hh)
    (fun t hh => hh) (fun t nw hh => hh) cfg s
    (fun t _ => fun _ => le_max_right _ _) t' ht'
  exact hr (h t ht)

theorem tick_evolves (cfg : SimConfig) (s : SimState)
    (hnn : ∀ t ∈ allThreads s, 0 ≤ t.remaining) :
    ∀ t' ∈ allThreads (tick cfg s), ∃ t ∈ allThreads s, Evolves t t' := by
  have hmid : ∀ u ∈ occupants (dispatch cfg.pol
        (random_interrupts cfg.intrEnabled (cfg.oracle s.time) s.cores
          (waiting_io_resolve s.waiting
            (workload_admit_tick s.workload s.ready s.time).2 s.time).1 s.time).1
        (waiting_io_resolve s.waiting
          (workload_admit_tick s.workload s.ready s.time).2 s.time).2 s.time).1,
      0 ≤ u.remaining := by
    intro u hu
    obtain ⟨t, ht, he⟩ := dispatch_stage_rel (fun a b => b.remaining = a.remaining)
      (fun t => rfl) (fun a b c h1 h2 => h2.trans h1) (fun t nw => rfl) (fun t => rfl)
      cfg s u (List.mem_append.mpr (Or.inl hu))
    rw [he]
    exact hnn t ht
  exact tick_rel Evolves evolves_refl (fun a b c h1 h2 => evolves_trans h1 h2)
    evolves_ready evolves_wait evolves_bind evolves_bump evolves_finish cfg s
    (fun t htm => evolves_step t (hmid t htm)) 

theorem simSteps_nonneg (cfg : SimConfig) :
    ∀ (n : Nat) (s : SimState), (∀ t ∈ allThreads s, 0 ≤ t.remaining) →
      ∀ t ∈ allThreads (simSteps cfg n s), 0 ≤ t.remaining := by
  intro n
  induction n with
  | zero => intro s h; exact h
  | succ k ih =>
    intro s h
    exact ih (tick cfg s) (tick_nonneg cfg s h)

theorem initState_nonneg (wl : List Thread) (ncores : Nat)
    (h : ∀ t ∈ wl, 0 ≤ t.remaining) :
    ∀ t ∈ allThreads (initState wl ncores), 0 ≤ t.remaining := by
  intro t ht
  have hw : (initState wl ncores).workload = (workload_admit_tick wl [] 0).1 := rfl
  have hr : (initState wl ncores).ready = (workload_admit_tick wl [] 0).2 := rfl
  have hwa : (initState wl ncores).waiting = [] := rfl
  have hc : (initState wl ncores).cores = List.replicate ncores none := rfl
  have hf : (initState wl ncores).finished = [] := rfl
  unfold allThreads at ht
  rw [hw, hr, hwa, hc, hf, occupants_replicate_none] at ht
  simp only [List.mem_append, List.not_mem_nil, or_false] at ht
  rcases ht with hW | hR
  · exact h t (admit_mem_workload t hW)
  · rcases admit_mem_ready t hR with h1 | ⟨u, hu, he⟩
    · simp at h1
    · subst he
      exact h u hu

theorem simSteps_succ_right (cfg : SimConfig) :
    ∀ (n : Nat) (s : SimState),
      simSteps cfg (n + 1) s = tick cfg (simSteps cfg n s) := by
  intro n
  induction n with
  | zero => intro s; rfl
  | succ k ih =>
    intro s
    show simSteps cfg (k + 1) (tick cfg s) = _
    rw [ih (tick cfg s)]
    rfl

/-- C3: across every step of the simulation started from a well-formed
workload, every thread evolves monotonically: `remaining` never increases,
`wait_time` never decreases, and `start_time` and `finish_time`, once set
to a non-negative value, are never changed again (and thread identity is
preserved) — each thread present after a tick descends from a thread
present before it under the `Evolves` contract. -/
theorem monotonic_evolution (cfg : SimConfig) (wl : List Thread) (ncores : Nat)
    (hwl : ∀ t ∈ wl, 0 ≤ t.remaining) (n : Nat) :
    ∀ t' ∈ allThreads (simSteps cfg (n + 1) (initState wl ncores)),
      ∃ t ∈ allThreads (simSteps cfg n (initState wl ncores)), Evolves t t' := by
  have hn : ∀ t ∈ allThreads (simSteps cfg n (initState wl ncores)), 0 ≤ t.remaining :=
    simSteps_nonneg cfg n _ (initState_nonneg wl ncores hwl)
  rw [simSteps_succ_right]
  exact tick_evolves cfg _ hn

/-- Witness for the C3 theorem: the preset workload on one core under
FIFO, from tick boundary 2 to tick boundary 3. -/
theorem monotonic_evolution_witness :
    (∀ t ∈ presetWorkload, 0 ≤ t.remaining) ∧
    (∀ t' ∈ allThreads (simSteps (quietCfg Policy.fifo) 3 (initState presetWorkload 1)),
      ∃ t ∈ allThreads (simSteps (quietCfg Policy.fifo) 2 (initState presetWorkload 1)),
        Evolves t t') :=
  ⟨by decide, monotonic_evolution (quietCfg Policy.fifo) presetWorkload 1 (by decide) 2⟩

end SchedSim

namespace SchedSim

theorem key_sum {l1 l2 l3 l4 : List Thread} {g : Thread → Nat}
    (h : (↑(l1.map g) : Multiset Nat) + ↑(l2.map g) = ↑(l3.map g) + ↑(l4.map g)) :
    (l1.map g).sum + (l2.map g).sum = (l3.map g).sum + (l4.map g).sum := by
  have h2 := congrArg Multiset.sum h
  simpa [Multiset.sum_add, Multiset.sum_coe] using h2

theorem trSum_step (l : List Thread) (h : ∀ t ∈ l, 1 ≤ t.remaining) :
    trSum (l.map stepThread) + l.length = trSum l := by
  induction l with
  | nil => rfl
  | cons t rest ih =>
    have ht : 1 ≤ t.remaining := h t (List.mem_cons_self _ _)
    have hrest := ih (fun x hx => h x (List.mem_cons_of_mem _ hx))
    show (stepThread t).remaining.toNat + trSum (rest.map stepThread) + (rest.length + 1) =
      t.remaining.toNat + trSum rest
    have hone : (stepThread t).remaining.toNat + 1 = t.remaining.toNat := by
      show (max (t.remaining - 1) 0).toNat + 1 = t.remaining.toNat
      omega
    omega

theorem slackSum_shift (time : Int) (l : List Thread)
    (h : ∀ t ∈ l, time + 1 ≤ t.unblocked_at) :
    slackSum (time + 1) l + l.length = slackSum time l := by
  induction l with
  | nil => rfl
  | cons t rest ih =>
    have ht : time + 1 ≤ t.unblocked_at := h t (List.mem_cons_self _ _)
    have hrest := ih (fun x hx => h x (List.mem_cons_of_mem _ hx))
    show (t.unblocked_at - (time + 1)).toNat + slackSum (time + 1) rest + (rest.length + 1) =
      (t.unblocked_at - time).toNat + slackSum time rest
    have hone : (t.unblocked_at - (time + 1)).toNat + 1 = (t.unblocked_at - time).toNat := by
      omega
    omega

theorem slackSum_filter_le (time : Int) (p : Thread → Bool) (l : List Thread) :
    slackSum time (l.filter p) ≤ slackSum time l := by
  induction l with
  | nil => exact le_refl _
  | cons t rest ih =>
    show slackSum time ((t :: rest).filter p) ≤
      (t.unblocked_at - time).toNat + slackSum time rest
    cases hp : p t with
    | true =>
      rw [List.filter_cons_of_pos hp]
      show (t.unblocked_at - time).toNat + slackSum time (rest.filter p) ≤ _
      omega
    | false =>
      rw [List.filter_cons_of_neg (by simp [hp])]
      omega

theorem occCount_cons_none (rest : CPU) :
    occCount ((none : Option Thread) :: rest) = occCount rest := by
  unfold occCount
  rw [occupants_cons]
  simp [Option.toList]

theorem occCount_cons_some (t : Thread) (rest : CPU) :
    occCount (some t :: rest) = occCount rest + 1 := by
  unfold occCount
  rw [occupants_cons]
  simp [Option.toList]

theorem collect_occ_keep (now : Int) :
    ∀ (l : CPU) (fin : List Thread),
      ∀ t ∈ occupants (collectAux now l fin).1,
        t ∈ occupants l ∧ t.remaining ≠ 0 := by
  intro l
  induction l with
  | nil => intro fin t ht; exact absurd ht (by simp [collectAux, occupants])
  | cons a rest ih =>
    intro fin t ht
    cases a with
    | none =>
      have e1 : (collectAux now (none :: rest) fin).1 =
          none :: (collectAux now rest fin).1 := rfl
      rw [e1, occupants_cons] at ht
      simp only [Option.toList, List.nil_append] at ht
      obtain ⟨h1, h2⟩ := ih fin t ht
      refine ⟨?_, h2⟩
      rw [occupants_cons]
      simp only [Option.toList, List.nil_append]
      exact h1
    | some u =>
      cases hz : (u.remaining == 0) with
      | true =>
        have e1 : (collectAux now (some u :: rest) fin).1 =
            none :: (collectAux now rest (q_push fin (finishThread u now))).1 := by
          simp only [collectAux, hz]
          rfl
        rw [e1, occupants_cons] at ht
        simp only [Option.toList, List.nil_append] at ht
        obtain ⟨h1, h2⟩ := ih (q_push fin (finishThread u now)) t ht
        refine ⟨?_, h2⟩
        rw [occupants_cons]
        exact List.mem_append.mpr (Or.inr h1)
      | false =>
        have e1 : (collectAux now (some u :: rest) fin).1 =
            some u :: (collectAux now rest fin).1 := by
          simp only [collectAux, hz]
          rfl
        rw [e1, occupants_cons] at ht
        simp only [Option.toList, List.singleton_append] at ht
        rcases List.mem_cons.mp ht with h1 | h1
        · subst h1
          refine ⟨?_, by simpa using hz⟩
          rw [occupants_cons]
          simp [Option.toList]
        · obtain ⟨h2, h3⟩ := ih fin t h1
          refine ⟨?_, h3⟩
          rw [occupants_cons]
          exact List.mem_append.mpr (Or.inr h2)

theorem collect_trSum (now : Int) :
    ∀ (l : CPU) (fin : List Thread),
      trSum (occupants (collectAux now l fin).1) = trSum (occupants l) := by
  intro l
  induction l with
  | nil => intro fin; rfl
  | cons a rest ih =>
    intro fin
    cases a with
    | none =>
      have e1 : (collectAux now (none :: rest) fin).1 =
          none :: (collectAux now rest fin).1 := rfl
      rw [e1, occupants_cons, occupants_cons]
      simp only [Option.toList, List.nil_append]
      exact ih fin
    | some u =>
      cases hz : (u.remaining == 0) with
      | true =>
        have hz' : u.remaining = 0 := by simpa using hz
        have e1 : (collectAux now (some u :: rest) fin).1 =
            none :: (collectAux now rest (q_push fin (finishThread u now))).1 := by
          simp only [collectAux, hz]
          rfl
        rw [e1, occupants_cons, occupants_cons]
        simp only [Option.toList, List.nil_append, List.singleton_append]
        show trSum (occupants (collectAux now rest (q_push fin (finishThread u now))).1) =
          trSum (u :: occupants rest)
        rw [ih (q_push fin (finishThread u now))]
        show trSum (occupants rest) = u.remaining.toNat + trSum (occupants rest)
        omega
      | false =>
        have e1 : (collectAux now (some u :: rest) fin).1 =
            some u :: (collectAux now rest fin).1 := by
          simp only [collectAux, hz]
          rfl
        rw [e1, occupants_cons, occupants_cons]
        simp only [Option.toList, List.singleton_append]
        show trSum (u :: occupants (collectAux now rest fin).1) = trSum (u :: occupants rest)
        show u.remaining.toNat + trSum (occupants (collectAux now rest fin).1) =
          u.remaining.toNat + trSum (occupants rest)
        rw [ih fin]

theorem collect_occCount_le (now : Int) :
    ∀ (l : CPU) (fin : List Thread),
      occCount (collectAux now l fin).1 ≤ occCount l := by
  intro l
  induction l with
  | nil => intro fin; exact le_refl _
  | cons a rest ih =>
    intro fin
    cases a with
    | none =>
      have e1 : (collectAux now (none :: rest) fin).1 =
          none :: (collectAux now rest fin).1 := rfl
      rw [e1, occCount_cons_none, occCount_cons_none]
      exact ih fin
    | some u =>
      cases hz : (u.remaining == 0) with
      | true =>
        have e1 : (collectAux now (some u :: rest) fin).1 =
            none :: (collectAux now rest (q_push fin (finishThread u now))).1 := by
          simp only [collectAux, hz]
          rfl
        rw [e1, occCount_cons_none, occCount_cons_some]
        exact le_trans (ih _) (Nat.le_succ _)
      | false =>
        have e1 : (collectAux now (some u :: rest) fin).1 =
            some u :: (collectAux now rest fin).1 := by
          simp only [collectAux, hz]
          rfl
        rw [e1, occCount_cons_some, occCount_cons_some]
        exact Nat.succ_le_succ (ih fin)

end SchedSim

namespace SchedSim

theorem interruptsAux_slack (M : Int) (oracle : Nat → Option Int)
    (hOK : ∀ i d, oracle i = some d → 1 ≤ d ∧ d ≤ M) (now : Int) :
    ∀ (l : CPU) (i : Nat) (w : List Thread),
      slackSum now (interruptsAux oracle now l i w).2 +
        (M.toNat + 1) * occCount (interruptsAux oracle now l i w).1 ≤
      slackSum now w + (M.toNat + 1) * occCount l := by
  intro l
  induction l with
  | nil => intro i w; exact le_refl _
  | cons a rest ih =>
    intro i w
    cases a with
    | none =>
      have e1 : (interruptsAux oracle now (none :: rest) i w).1 =
          none :: (interruptsAux oracle now rest (i + 1) w).1 := rfl
      have e2 : (interruptsAux oracle now (none :: rest) i w).2 =
          (interruptsAux oracle now rest (i + 1) w).2 := rfl
      rw [e1, e2, occCount_cons_none, occCount_cons_none]
      exact ih (i + 1) w
    | some t =>
      cases ho : oracle i with
      | some dur =>
        obtain ⟨hd1, hd2⟩ := hOK i dur ho
        have e1 : (interruptsAux oracle now (some t :: rest) i w).1 =
            none :: (interruptsAux oracle now rest (i + 1)
              (q_push w (waitThread t (now + dur)))).1 := by
          simp only [interruptsAux, ho]
        have e2 : (interruptsAux oracle now (some t :: rest) i w).2 =
            (interruptsAux oracle now rest (i + 1)
              (q_push w (waitThread t (now + dur)))).2 := by
          simp only [interruptsAux, ho]
        rw [e1, e2, occCount_cons_none, occCount_cons_some]
        have hih := ih (i + 1) (q_push w (waitThread t (now + dur)))
        have hw' : slackSum now (q_push w (waitThread t (now + dur))) =
            slackSum now w + (now + dur - now).toNat := by
          unfold slackSum q_push
          rw [List.map_append, List.sum_append]
          rfl
        have hdt : (now + dur - now).toNat ≤ M.toNat := by omega
        have hdist : (M.toNat + 1) * (occCount rest + 1) =
            (M.toNat + 1) * occCount rest + (M.toNat + 1) := by ring
        omega
      | none =>
        have e1 : (interruptsAux oracle now (some t :: rest) i w).1 =
            some t :: (interruptsAux oracle now rest (i + 1) w).1 := by
          simp only [interruptsAux, ho]
        have e2 : (interruptsAux oracle now (some t :: rest) i w).2 =
            (interruptsAux oracle now rest (i + 1) w).2 := by
          simp only [interruptsAux, ho]
        rw [e1, e2, occCount_cons_some, occCount_cons_some]
        have hih := ih (i + 1) w
        have hdist : (M.toNat + 1) * (occCount (interruptsAux oracle now rest (i + 1) w).1 + 1) =
            (M.toNat + 1) * occCount (interruptsAux oracle now rest (i + 1) w).1 +
              (M.toNat + 1) := by ring
        have hdist2 : (M.toNat + 1) * (occCount rest + 1) =
            (M.toNat + 1) * occCount rest + (M.toNat + 1) := by ring
        omega

theorem interruptsAux_unblock (oracle : Nat → Option Int)
    (hOK : ∀ i d, oracle i = some d → 1 ≤ d) (now : Int) :
    ∀ (l : CPU) (i : Nat) (w : List Thread),
      (∀ t ∈ w, now + 1 ≤ t.unblocked_at) →
        ∀ t ∈ (interruptsAux oracle now l i w).2, now + 1 ≤ t.unblocked_at := by
  intro l
  induction l with
  | nil => intro i w hbase t ht; exact hbase t ht
  | cons a rest ih =>
    intro i w hbase t ht
    cases a with
    | none =>
      have e2 : (interruptsAux oracle now (none :: rest) i w).2 =
          (interruptsAux oracle now rest (i + 1) w).2 := rfl
      rw [e2] at ht
      exact ih (i + 1) w hbase t ht
    | some u =>
      cases ho : oracle i with
      | some dur =>
        have e2 : (interruptsAux oracle now (some u :: rest) i w).2 =
            (interruptsAux oracle now rest (i + 1)
              (q_push w (waitThread u (now + dur)))).2 := by
          simp only [interruptsAux, ho]
        rw [e2] at ht
        refine ih (i + 1) _ ?_ t ht
        intro x hx
        rcases List.mem_append.mp hx with h1 | h1
        · exact hbase x h1
        · simp only [List.mem_singleton] at h1
          subst h1
          show now + 1 ≤ now + dur
          have := hOK i dur ho
          omega
      | none =>
        have e2 : (interruptsAux oracle now (some u :: rest) i w).2 =
            (interruptsAux oracle now rest (i + 1) w).2 := by
          simp only [interruptsAux, ho]
        rw [e2] at ht
        exact ih (i + 1) w hbase t ht

theorem resolve_keep_unblock {w r : List Thread} {now : Int}
    (hbase : ∀ t ∈ w, now ≤ t.unblocked_at) :
    ∀ t ∈ (waiting_io_resolve w r now).1, now + 1 ≤ t.unblocked_at := by
  intro t ht
  unfold waiting_io_resolve at ht
  have h1 := List.mem_filter.mp ht
  have h2 : t.unblocked_at ≠ now := by
    have := h1.2
    simp at this
    exact this
  have h3 := hbase t h1.1
  omega

theorem interruptsAux_length (oracle : Nat → Option Int) (now : Int) :
    ∀ (l : CPU) (i : Nat) (w : List Thread),
      (interruptsAux oracle now l i w).1.length = l.length := by
  intro l
  induction l with
  | nil => intro i w; rfl
  | cons a rest ih =>
    intro i w
    cases a with
    | none =>
      have e1 : (interruptsAux oracle now (none :: rest) i w).1 =
          none :: (interruptsAux oracle now rest (i + 1) w).1 := rfl
      rw [e1]
      simp [ih (i + 1) w]
    | some t =>
      cases ho : oracle i with
      | some dur =>
        have e1 : (interruptsAux oracle now (some t :: rest) i w).1 =
            none :: (interruptsAux oracle now rest (i + 1)
              (q_push w (waitThread t (now + dur)))).1 := by
          simp only [interruptsAux, ho]
        rw [e1]
        simp [ih (i + 1) _]
      | none =>
        have e1 : (interruptsAux oracle now (some t :: rest) i w).1 =
            some t :: (interruptsAux oracle now rest (i + 1) w).1 := by
          simp only [interruptsAux, ho]
        rw [e1]
        simp [ih (i + 1) w]

theorem fillLoop_length (pop : List Thread → Option (Thread × List Thread)) :
    ∀ (fuel : Nat) (cpu : CPU) (ready : List Thread) (now : Int),
      (fillLoop pop fuel cpu ready now).1.length = cpu.length := by
  intro fuel
  induction fuel with
  | zero => intro cpu ready now; rfl
  | succ n ih =>
    intro cpu ready now
    cases hi : cpu_first_idle cpu with
    | none => simp only [fillLoop, hi]
    | some i =>
      cases hp : pop ready with
      | none => simp only [fillLoop, hi, hp]
      | some p =>
        obtain ⟨t, rest⟩ := p
        simp only [fillLoop, hi, hp]
        rw [ih (cpu_bind_core cpu i t now) rest now]
        unfold cpu_bind_core
        exact List.length_set _ _ _

theorem srtcfLoop_length :
    ∀ (fuel : Nat) (cpu : CPU) (ready : List Thread) (now : Int)
      (res : CPU × List Thread × Bool),
      srtcfLoop fuel cpu ready now = some res → res.1.length = cpu.length := by
  intro fuel
  induction fuel with
  | zero => intro cpu ready now res h; simp [srtcfLoop] at h
  | succ n ih =>
    intro cpu ready now res h
    cases hp : q_pop_min_remaining ready with
    | none =>
      simp only [srtcfLoop, hp] at h
      have hres := Option.some.inj h
      subst hres
      rfl
    | some p =>
      obtain ⟨best, rest⟩ := p
      cases hi : cpu_first_idle cpu with
      | some idle =>
        simp only [srtcfLoop, hp, hi] at h
        rw [ih _ _ now res h]
        unfold cpu_bind_core
        exact List.length_set _ _ _
      | none =>
        cases hv : core_with_largest_remaining_above cpu best.remaining with
        | none =>
          simp only [srtcfLoop, hp, hi, hv] at h
          have hres := Option.some.inj h
          subst hres
          rfl
        | some victim =>
          simp only [srtcfLoop, hp, hi, hv] at h
          obtain ⟨vt, hvt, hbv⟩ := cwlra_some hv
          have hpr : preempt_to_ready cpu victim rest =
              (cpu.set victim none, q_push rest (readyThread vt)) := by
            unfold preempt_to_ready
            rw [hvt]
          rw [hpr] at h
          have hset : cpu_bind_core (cpu.set victim none) victim best now =
              cpu.set victim (some (bindThread best now)) := by
            unfold cpu_bind_core
            exact List.set_set _ _ _ _
          simp only [hset] at h
          rw [ih _ _ now res h]
          exact List.length_set _ _ _

theorem dispatch_length (pol : Policy) (cpu : CPU) (ready : List Thread) (now : Int) :
    (dispatch pol cpu ready now).1.length = cpu.length := by
  cases pol with
  | fifo => exact fillLoop_length q_pop ready.length cpu ready now
  | sjf => exact fillLoop_length q_pop_min_burst ready.length cpu ready now
  | srtcf =>
    obtain ⟨res, hres, hd⟩ := dispatch_srtcf_eq cpu ready now
    have hgoal : dispatch Policy.srtcf cpu ready now = (res.1, res.2.1) := hd
    rw [hgoal]
    rw [srtcfLoop_length _ _ _ now res hres]
    exact fillLoop_length q_pop_min_remaining ready.length cpu ready now

theorem random_interrupts_length (enabled : Bool) (oracle : Nat → Option Int)
    (cpu : CPU) (waiting : List Thread) (now : Int) :
    (random_interrupts enabled oracle cpu waiting now).1.length = cpu.length := by
  cases enabled with
  | false => rfl
  | true => exact interruptsAux_length oracle now cpu 0 waiting

end SchedSim

namespace SchedSim

theorem fillLoop_exit (pop : List Thread → Option (Thread × List Thread))
    (hpop : ∀ q m r, pop q = some (m, r) → q.Perm (m :: r))
    (hnone : ∀ q, pop q = none → q = []) :
    ∀ (fuel : Nat) (cpu : CPU) (ready : List Thread) (now : Int),
      ready.length ≤ fuel →
        (fillLoop pop fuel cpu ready now).2 = [] ∨
          cpu_first_idle (fillLoop pop fuel cpu ready now).1 = none := by
  intro fuel
  induction fuel with
  | zero =>
    intro cpu ready now hlen
    have : ready = [] := List.length_eq_zero.mp (Nat.le_zero.mp hlen)
    exact Or.inl this
  | succ n ih =>
    intro cpu ready now hlen
    cases hi : cpu_first_idle cpu with
    | none =>
      simp only [fillLoop, hi]
      exact Or.inr trivial
    | some i =>
      cases hp : pop ready with
      | none =>
        simp only [fillLoop, hi, hp]
        exact Or.inl (hnone ready hp)
      | some p =>
        obtain ⟨t, rest⟩ := p
        simp only [fillLoop, hi, hp]
        refine ih (cpu_bind_core cpu i t now) rest now ?_
        have := (hpop ready t rest hp).length_eq
        simp at this
        omega

theorem q_pop_none {q : List Thread} (h : q_pop q = none) : q = [] := by
  cases q with
  | nil => rfl
  | cons t rest => simp [q_pop] at h

theorem dispatch_exit (pol : Policy) (cpu : CPU) (ready : List Thread) (now : Int) :
    (dispatch pol cpu ready now).2 = [] ∨
      cpu_first_idle (dispatch pol cpu ready now).1 = none := by
  cases pol with
  | fifo =>
    exact fillLoop_exit q_pop (fun q m r h => q_pop_perm h)
      (fun q h => q_pop_none h) ready.length cpu ready now (le_refl _)
  | sjf =>
    exact fillLoop_exit q_pop_min_burst
      (fun q m r h => popMinBy_perm (fun t => t.burst_time) h)
      (fun q h => (popMinBy_eq_none_iff _ q).mp h) ready.length cpu ready now (le_refl _)
  | srtcf =>
    obtain ⟨res, hres, hd⟩ := dispatch_srtcf_eq cpu ready now
    have hgoal : dispatch Policy.srtcf cpu ready now = (res.1, res.2.1) := hd
    rw [hgoal]
    rcases srtcfLoop_exit_shape _ _ _ now res hres with ⟨hfl, hempty⟩ | ⟨hfl, best, rest, hq, hmin, hidle, hcw⟩
    · exact Or.inl hempty
    · exact Or.inr hidle

theorem first_idle_ne_none_of_no_occ {l : CPU} (hlen : 1 ≤ l.length)
    (hocc : occupants l = []) : cpu_first_idle l ≠ none := by
  intro h
  have hall := cpu_first_idle_eq_none h
  cases l with
  | nil => simp at hlen
  | cons a rest =>
    have ha := hall a (List.mem_cons_self _ _)
    cases a with
    | none => simp at ha
    | some t =>
      rw [occupants_cons] at hocc
      simp [Option.toList] at hocc

theorem all_none_of_occ_nil : ∀ (l : CPU), occupants l = [] →
    l.all (fun slot => slot.isNone) = true := by
  intro l
  induction l with
  | nil => intro h; rfl
  | cons a rest ih =>
    intro h
    cases a with
    | none =>
      rw [occupants_cons] at h
      simp only [Option.toList, List.nil_append] at h
      simpa using ih h
    | some t =>
      rw [occupants_cons] at h
      simp [Option.toList] at h

theorem mem_live_workload {t : Thread} {s : SimState} (h : t ∈ s.workload) :
    t ∈ s.workload ++ s.ready ++ s.waiting ++ occupants s.cores := by
  simp [List.mem_append, h]

theorem mem_live_ready {t : Thread} {s : SimState} (h : t ∈ s.ready) :
    t ∈ s.workload ++ s.ready ++ s.waiting ++ occupants s.cores := by
  simp [List.mem_append, h]

theorem mem_live_waiting {t : Thread} {s : SimState} (h : t ∈ s.waiting) :
    t ∈ s.workload ++ s.ready ++ s.waiting ++ occupants s.cores := by
  simp [List.mem_append, h]

theorem mem_live_cores {t : Thread} {s : SimState} (h : t ∈ occupants s.cores) :
    t ∈ s.workload ++ s.ready ++ s.waiting ++ occupants s.cores := by
  simp [List.mem_append, h]

theorem dispatch_stage_live (cfg : SimConfig) (s : SimState) :
    ∀ u ∈ occupants (dispatch cfg.pol
          (random_interrupts cfg.intrEnabled (cfg.oracle s.time) s.cores
            (waiting_io_resolve s.waiting
              (workload_admit_tick s.workload s.ready s.time).2 s.time).1 s.time).1
          (waiting_io_resolve s.waiting
            (workload_admit_tick s.workload s.ready s.time).2 s.time).2 s.time).1 ++
        (dispatch cfg.pol
          (random_interrupts cfg.intrEnabled (cfg.oracle s.time) s.cores
            (waiting_io_resolve s.waiting
              (workload_admit_tick s.workload s.ready s.time).2 s.time).1 s.time).1
          (waiting_io_resolve s.waiting
            (workload_admit_tick s.workload s.ready s.time).2 s.time).2 s.time).2,
      ∃ t ∈ s.workload ++ s.ready ++ s.waiting ++ occupants s.cores,
        u.remaining = t.remaining := by
  intro u hu
  obtain ⟨v, hv, hrv⟩ := dispatch_rel (fun a b => b.remaining = a.remaining)
    (fun t => rfl) (fun a b c h1 h2 => h2.trans h1) (fun t nw => rfl) (fun t => rfl)
    cfg.pol _ _ s.time u hu
  rcases List.mem_append.mp hv with h1 | h1
  · have h2 := (random_interrupts_mem cfg.intrEnabled (cfg.oracle s.time) s.cores _ s.time).1 v h1
    exact ⟨v, mem_live_cores h2, hrv⟩
  · rcases resolve_mem_ready v h1 with h2 | ⟨t, ht, he⟩
    · rcases admit_mem_ready v h2 with h3 | ⟨t, ht, he⟩
      · exact ⟨v, mem_live_ready h3, hrv⟩
      · subst he
        exact ⟨t, mem_live_workload ht, hrv⟩
    · subst he
      exact ⟨t, mem_live_waiting ht, hrv⟩

end SchedSim

namespace SchedSim

theorem random_interrupts_slack (M : Int) (enabled : Bool) (oracle : Nat → Option Int)
    (hOK : ∀ i d, oracle i = some d → 1 ≤ d ∧ d ≤ M)
    (cpu : CPU) (w : List Thread) (now : Int) :
    slackSum now (random_interrupts enabled oracle cpu w now).2 +
      (M.toNat + 1) * occCount (random_interrupts enabled oracle cpu w now).1 ≤
    slackSum now w + (M.toNat + 1) * occCount cpu := by
  cases enabled with
  | false => exact le_refl _
  | true => exact interruptsAux_slack M oracle hOK now cpu 0 w

theorem random_interrupts_unblock (enabled : Bool) (oracle : Nat → Option Int)
    (hOK : ∀ i d, oracle i = some d → 1 ≤ d)
    (cpu : CPU) (w : List Thread) (now : Int)
    (hbase : ∀ t ∈ w, now + 1 ≤ t.unblocked_at) :
    ∀ t ∈ (random_interrupts enabled oracle cpu w now).2, now + 1 ≤ t.unblocked_at := by
  cases enabled with
  | false => exact hbase
  | true => exact interruptsAux_unblock oracle hOK now cpu 0 w hbase

theorem dp_occ_rem (cfg : SimConfig) (s : SimState) (hinv : SimInv s) :
    ∀ u ∈ occupants (dispatch cfg.pol
          (random_interrupts cfg.intrEnabled (cfg.oracle s.time) s.cores
            (waiting_io_resolve s.waiting
              (workload_admit_tick s.workload s.ready s.time).2 s.time).1 s.time).1
          (waiting_io_resolve s.waiting
            (workload_admit_tick s.workload s.ready s.time).2 s.time).2 s.time).1 ++
        (dispatch cfg.pol
          (random_interrupts cfg.intrEnabled (cfg.oracle s.time) s.cores
            (waiting_io_resolve s.waiting
              (workload_admit_tick s.workload s.ready s.time).2 s.time).1 s.time).1
          (waiting_io_resolve s.waiting
            (workload_admit_tick s.workload s.ready s.time).2 s.time).2 s.time).2,
      1 ≤ u.remaining := by
  obtain ⟨hW, hR, hWA, hOC, hUB⟩ := hinv
  intro u hu
  obtain ⟨t, ht, he⟩ := dispatch_stage_live cfg s u hu
  rw [he]
  simp only [List.mem_append] at ht
  rcases ht with ((h1 | h1) | h1) | h1
  · exact hW t h1
  · exact hR t h1
  · exact hWA t h1
  · exact hOC t h1

theorem tick_inv (cfg : SimConfig) (s : SimState) (hinv : SimInv s)
    (hOKpos : ∀ i d, cfg.oracle s.time i = some d → 1 ≤ d) :
    SimInv (tick cfg s) := by
  have hdp := dp_occ_rem cfg s hinv
  obtain ⟨hW, hR, hWA, hOC, hUB⟩ := hinv
  refine ⟨?_, ?_, ?_, ?_, ?_⟩
  · intro t ht
    have ht' : t ∈ (workload_admit_tick s.workload s.ready s.time).1 := ht
    exact hW t (admit_mem_workload t ht')
  · intro t ht
    have ht' : t ∈ bump_queue_wait
        (dispatch cfg.pol
          (random_interrupts cfg.intrEnabled (cfg.oracle s.time) s.cores
            (waiting_io_resolve s.waiting
              (workload_admit_tick s.workload s.ready s.time).2 s.time).1 s.time).1
          (waiting_io_resolve s.waiting
            (workload_admit_tick s.workload s.ready s.time).2 s.time).2 s.time).2 := ht
    unfold bump_queue_wait at ht'
    obtain ⟨u, hu, hb⟩ := List.mem_map.mp ht'
    have h1 : 1 ≤ u.remaining := hdp u (List.mem_append.mpr (Or.inr hu))
    rw [← hb]
    exact h1
  · intro t ht
    have ht' : t ∈ (random_interrupts cfg.intrEnabled (cfg.oracle s.time) s.cores
        (waiting_io_resolve s.waiting
          (workload_admit_tick s.workload s.ready s.time).2 s.time).1 s.time).2 := ht
    rcases (random_interrupts_mem cfg.intrEnabled (cfg.oracle s.time) s.cores _ s.time).2
        t ht' with h1 | ⟨u, hu, v, he⟩
    · exact hWA t (resolve_mem_waiting t h1)
    · subst he
      exact hOC u hu
  · intro t ht
    have ht' : t ∈ occupants (collectAux (s.time + 1)
        (cpu_step_cores
          (dispatch cfg.pol
            (random_interrupts cfg.intrEnabled (cfg.oracle s.time) s.cores
              (waiting_io_resolve s.waiting
                (workload_admit_tick s.workload s.ready s.time).2 s.time).1 s.time).1
            (waiting_io_resolve s.waiting
              (workload_admit_tick s.workload s.ready s.time).2 s.time).2 s.time).1)
        s.finished).1 := ht
    obtain ⟨hmem, hne⟩ := collect_occ_keep (s.time + 1) _ s.finished t ht'
    rw [cpu_step_cores, occupants_map_commute] at hmem
    obtain ⟨u, hu, hsu⟩ := List.mem_map.mp hmem
    have h0 : (stepThread u).remaining = max (u.remaining - 1) 0 := rfl
    rw [← hsu]
    rw [← hsu] at hne
    omega
  · intro t ht
    have ht' : t ∈ (random_interrupts cfg.intrEnabled (cfg.oracle s.time) s.cores
        (waiting_io_resolve s.waiting
          (workload_admit_tick s.workload s.ready s.time).2 s.time).1 s.time).2 := ht
    show (tick cfg s).time ≤ t.unblocked_at
    have htime : (tick cfg s).time = s.time + 1 := rfl
    rw [htime]
    exact random_interrupts_unblock cfg.intrEnabled (cfg.oracle s.time) hOKpos s.cores _
      s.time (resolve_keep_unblock hUB) t ht'

end SchedSim

namespace SchedSim

theorem collectAux_length (now : Int) :
    ∀ (l : CPU) (fin : List Thread), (collectAux now l fin).1.length = l.length := by
  intro l
  induction l with
  | nil => intro fin; rfl
  | cons a rest ih =>
    intro fin
    cases a with
    | none =>
      have e1 : (collectAux now (none :: rest) fin).1 =
          none :: (collectAux now rest fin).1 := rfl
      rw [e1, List.length_cons, List.length_cons, ih fin]
    | some u =>
      cases hz : (u.remaining == 0) with
      | true =>
        have e1 : (collectAux now (some u :: rest) fin).1 =
            none :: (collectAux now rest (q_push fin (finishThread u now))).1 := by
          simp only [collectAux, hz]
          rfl
        rw [e1, List.length_cons, List.length_cons, ih _]
      | false =>
        have e1 : (collectAux now (some u :: rest) fin).1 =
            some u :: (collectAux now rest fin).1 := by
          simp only [collectAux, hz]
          rfl
        rw [e1, List.length_cons, List.length_cons, ih fin]

theorem tick_cores_length (cfg : SimConfig) (s : SimState) :
    (tick cfg s).cores.length = s.cores.length := by
  have h : (tick cfg s).cores =
      (collectAux (s.time + 1)
        (cpu_step_cores
          (dispatch cfg.pol
            (random_interrupts cfg.intrEnabled (cfg.oracle s.time) s.cores
              (waiting_io_resolve s.waiting
                (workload_admit_tick s.workload s.ready s.time).2 s.time).1 s.time).1
            (waiting_io_resolve s.waiting
              (workload_admit_tick s.workload s.ready s.time).2 s.time).2 s.time).1)
        s.finished).1 := rfl
  rw [h, collectAux_length, cpu_step_cores, List.length_map, dispatch_length,
    random_interrupts_length]

end SchedSim

namespace SchedSim

theorem tick_phi (ioMax : Int) (cfg : SimConfig) (s : SimState) (hinv : SimInv s)
    (hOK : OracleOk cfg.oracle ioMax) (hcores : 1 ≤ s.cores.length)
    (hdone : all_done (tick cfg s) = false) :
    phi ioMax (tick cfg s) < phi ioMax s := by
  have hdp := dp_occ_rem cfg s hinv
  obtain ⟨hW, hR, hWA, hOC, hUB⟩ := hinv
  set AW := workload_admit_tick s.workload s.ready s.time with hAW
  set RV := waiting_io_resolve s.waiting AW.2 s.time with hRV
  set IR := random_interrupts cfg.intrEnabled (cfg.oracle s.time) s.cores RV.1 s.time with hIR
  set DP := dispatch cfg.pol IR.1 RV.2 s.time with hDP
  set ST := cpu_step_cores DP.1 with hST
  set CL := collectAux (s.time + 1) ST s.finished with hCL
  have htick : tick cfg s =
      { time := s.time + 1, workload := AW.1, ready := bump_queue_wait DP.2,
        waiting := IR.2, cores := CL.1, finished := CL.2 } := rfl
  have hphiT : phi ioMax (tick cfg s) =
      (ioMax.toNat + 2) *
          (trSum AW.1 + trSum (bump_queue_wait DP.2) + trSum IR.2 + trSum (occupants CL.1)) +
        slackSum (s.time + 1) IR.2 + (ioMax.toNat + 1) * occCount CL.1 := by
    rw [htick]
    rfl
  have hphiS : phi ioMax s =
      (ioMax.toNat + 2) *
          (trSum s.workload + trSum s.ready + trSum s.waiting + trSum (occupants s.cores)) +
        slackSum s.time s.waiting + (ioMax.toNat + 1) * occCount s.cores := rfl
  have T1 : trSum AW.1 + trSum AW.2 = trSum s.workload + trSum s.ready := by
    rw [hAW]
    exact key_sum (admit_key (fun t => t.remaining.toNat) (fun t => rfl) s.workload s.ready s.time)
  have T2 : trSum RV.1 + trSum RV.2 = trSum s.waiting + trSum AW.2 := by
    rw [hRV]
    exact key_sum (resolve_key (fun t => t.remaining.toNat) (fun t => rfl) s.waiting AW.2 s.time)
  have T3 : trSum (occupants IR.1) + trSum IR.2 =
      trSum (occupants s.cores) + trSum RV.1 := by
    rw [hIR]
    exact key_sum (random_interrupts_key (fun t => t.remaining.toNat) (fun t u => rfl)
      cfg.intrEnabled (cfg.oracle s.time) s.cores RV.1 s.time)
  have T4 : trSum (occupants DP.1) + trSum DP.2 = trSum (occupants IR.1) + trSum RV.2 := by
    rw [hDP]
    exact key_sum (dispatch_key (fun t => t.remaining.toNat) (fun t nw => rfl) (fun t => rfl)
      cfg.pol IR.1 RV.2 s.time)
  have T5 : trSum (bump_queue_wait DP.2) = trSum DP.2 :=
    congrArg List.sum (bump_key (fun t => t.remaining.toNat) (fun t => rfl) DP.2)
  have hremDP : ∀ t ∈ occupants DP.1, 1 ≤ t.remaining :=
    fun t ht => hdp t (List.mem_append.mpr (Or.inl ht))
  have hoccST : occupants ST = (occupants DP.1).map stepThread := by
    rw [hST, cpu_step_cores]
    exact occupants_map_commute stepThread DP.1
  have T6 : trSum (occupants ST) + occCount DP.1 = trSum (occupants DP.1) := by
    rw [hoccST]
    exact trSum_step (occupants DP.1) hremDP
  have T7 : trSum (occupants CL.1) = trSum (occupants ST) := by
    rw [hCL]
    exact collect_trSum (s.time + 1) ST s.finished
  have T8 : occCount CL.1 ≤ occCount ST := by
    rw [hCL]
    exact collect_occCount_le (s.time + 1) ST s.finished
  have T8b : occCount ST = occCount DP.1 := by
    unfold occCount
    rw [hoccST, List.length_map]
  have hbase : ∀ t ∈ RV.1, s.time + 1 ≤ t.unblocked_at := by
    rw [hRV]
    exact resolve_keep_unblock hUB
  have hunb : ∀ t ∈ IR.2, s.time + 1 ≤ t.unblocked_at := by
    rw [hIR]
    exact random_interrupts_unblock cfg.intrEnabled (cfg.oracle s.time)
      (fun i d hd => (hOK s.time i d hd).1) s.cores RV.1 s.time hbase
  have T9 : slackSum (s.time + 1) IR.2 + IR.2.length = slackSum s.time IR.2 :=
    slackSum_shift s.time IR.2 hunb
  have T10 : slackSum s.time IR.2 + (ioMax.toNat + 1) * occCount IR.1 ≤
      slackSum s.time RV.1 + (ioMax.toNat + 1) * occCount s.cores := by
    rw [hIR]
    exact random_interrupts_slack ioMax cfg.intrEnabled (cfg.oracle s.time)
      (fun i d hd => hOK s.time i d hd) s.cores RV.1 s.time
  have T11 : slackSum s.time RV.1 ≤ slackSum s.time s.waiting := by
    rw [hRV]
    unfold waiting_io_resolve
    exact slackSum_filter_le s.time _ s.waiting
  have Tcase : 1 ≤ occCount DP.1 + IR.2.length := by
    by_contra hc
    push_neg at hc
    have hocc0 : occCount DP.1 = 0 := by omega
    have hir0 : IR.2.length = 0 := by omega
    have hir2nil : IR.2 = [] := List.length_eq_zero.mp hir0
    have hlenDP : DP.1.length = s.cores.length := by
      rw [hDP, dispatch_length, hIR]
      exact random_interrupts_length cfg.intrEnabled (cfg.oracle s.time) s.cores RV.1 s.time
    have hoccnil : occupants DP.1 = [] := List.length_eq_zero.mp hocc0
    have hidle : cpu_first_idle DP.1 ≠ none :=
      first_idle_ne_none_of_no_occ (by omega) hoccnil
    have hex : DP.2 = [] ∨ cpu_first_idle DP.1 = none := by
      rw [hDP]
      exact dispatch_exit cfg.pol IR.1 RV.2 s.time
    have hdp2 : DP.2 = [] := by
      rcases hex with h | h
      · exact h
      · exact absurd h hidle
    have hready2 : (tick cfg s).ready = [] := by
      rw [htick]
      show bump_queue_wait DP.2 = []
      rw [hdp2]
      rfl
    have hwait2 : (tick cfg s).waiting = [] := by
      rw [htick]
      show IR.2 = []
      exact hir2nil
    have hcores2 : occupants (tick cfg s).cores = [] := by
      rw [htick]
      show occupants CL.1 = []
      have h1 : occCount CL.1 = 0 := by omega
      exact List.length_eq_zero.mp h1
    have hall : all_done (tick cfg s) = true := by
      unfold all_done
      rw [hready2, hwait2, all_none_of_occ_nil (tick cfg s).cores hcores2]
      rfl
    rw [hall] at hdone
    simp at hdone
  have hOCle : occCount CL.1 ≤ occCount DP.1 := by omega
  have hmulTR : (ioMax.toNat + 2) *
        (trSum s.workload + trSum s.ready + trSum s.waiting + trSum (occupants s.cores)) =
      (ioMax.toNat + 2) *
          (trSum AW.1 + trSum (bump_queue_wait DP.2) + trSum IR.2 + trSum (occupants CL.1)) +
        (ioMax.toNat + 2) * occCount DP.1 := by
    have hTR : trSum AW.1 + trSum (bump_queue_wait DP.2) + trSum IR.2 +
          trSum (occupants CL.1) + occCount DP.1 =
        trSum s.workload + trSum s.ready + trSum s.waiting + trSum (occupants s.cores) := by
      omega
    rw [← hTR]
    ring
  have hOCsplit : (ioMax.toNat + 2) * occCount DP.1 =
      (ioMax.toNat + 1) * occCount DP.1 + occCount DP.1 := by ring
  have hmulCL : (ioMax.toNat + 1) * occCount CL.1 ≤ (ioMax.toNat + 1) * occCount DP.1 :=
    Nat.mul_le_mul_left _ hOCle
  rw [hphiT, hphiS, hmulTR]
  omega

end SchedSim

namespace SchedSim

theorem simLoop_terminates (ioMax : Int) (cfg : SimConfig)
    (hOK : OracleOk cfg.oracle ioMax) :
    ∀ (fuel : Nat) (s : SimState), SimInv s → 1 ≤ s.cores.length → phi ioMax s < fuel →
      ∃ s', simLoop cfg fuel s = some s' ∧ all_done s' = true := by
  intro fuel
  induction fuel with
  | zero => intro s _ _ hphi; exact absurd hphi (Nat.not_lt_zero _)
  | succ n ih =>
    intro s hinv hc hphi
    have hOKpos : ∀ i d, cfg.oracle s.time i = some d → 1 ≤ d :=
      fun i d hd => (hOK s.time i d hd).1
    have hinv' := tick_inv cfg s hinv hOKpos
    have hc' : 1 ≤ (tick cfg s).cores.length := by
      rw [tick_cores_length]
      exact hc
    have e : simLoop cfg (n + 1) s =
        if all_done (tick cfg s) = true then some (tick cfg s)
        else simLoop cfg n (tick cfg s) := rfl
    cases hd : all_done (tick cfg s) with
    | true =>
      refine ⟨tick cfg s, ?_, hd⟩
      rw [e, if_pos hd]
    | false =>
      have hdec := tick_phi ioMax cfg s hinv hOK hc hd
      obtain ⟨s', hs', hdone'⟩ := ih (tick cfg s) hinv' hc' (by omega)
      refine ⟨s', ?_, hdone'⟩
      rw [e, if_neg (by simp [hd])]
      exact hs'

theorem foldl_workload_rem (entries : List (Int × Int × Int)) :
    ∀ (w : List Thread), (∀ t ∈ w, 1 ≤ t.remaining) →
      (∀ e ∈ entries, 1 ≤ e.2.2) →
      ∀ t ∈ entries.foldl (fun w e => workload_add w e.1 e.2.1 e.2.2) w, 1 ≤ t.remaining := by
  induction entries with
  | nil => intro w hw _ t ht; exact hw t ht
  | cons e rest ih =>
    intro w hw he t ht
    refine ih (workload_add w e.1 e.2.1 e.2.2) ?_
      (fun x hx => he x (List.mem_cons_of_mem _ hx)) t ht
    intro u hu
    unfold workload_add q_push at hu
    rcases List.mem_append.mp hu with h | h
    · exact hw u h
    · have hue : u = make_thread e.1 e.2.1 e.2.2 := by simpa using h
      rw [hue]
      show 1 ≤ e.2.2
      exact he e (List.mem_cons_self _ _)

theorem initState_inv (wl : List Thread) (ncores : Nat)
    (hwl : ∀ t ∈ wl, 1 ≤ t.remaining) : SimInv (initState wl ncores) := by
  refine ⟨?_, ?_, ?_, ?_, ?_⟩
  · intro t ht
    have ht' : t ∈ (workload_admit_tick wl [] 0).1 := ht
    exact hwl t (admit_mem_workload t ht')
  · intro t ht
    have ht' : t ∈ (workload_admit_tick wl [] 0).2 := ht
    rcases admit_mem_ready t ht' with h | ⟨u, hu, he⟩
    · exact absurd h (List.not_mem_nil t)
    · rw [he]
      exact hwl u hu
  · intro t ht
    exact absurd ht (List.not_mem_nil t)
  · intro t ht
    have ht' : t ∈ occupants (List.replicate ncores none) := ht
    rw [occupants_replicate_none] at ht'
    exact absurd ht' (List.not_mem_nil t)
  · intro t ht
    exact absurd ht (List.not_mem_nil t)

end SchedSim

namespace SchedSim

/-- C6: for every finite well-formed workload (each entry with
`arrival_time ≥ 0` and `burst_time > 0`, entered through `workload_add`),
any core count ≥ 1, any dispatch policy, and every interrupt configuration
whose oracle only produces bounded positive I/O durations, the main
simulation loop halts: within `phi` of the initial state plus one ticks it
returns a final state in which the Ready and Waiting queues are empty and
every core is idle (`all_done`), and it stops at the first such tick. -/
theorem simulation_terminates (cfg : SimConfig) (ioMax : Int)
    (entries : List (Int × Int × Int)) (ncores : Nat)
    (hn : 1 ≤ ncores)
    (hwf : ∀ e ∈ entries, 0 ≤ e.2.1 ∧ 1 ≤ e.2.2)
    (hOK : OracleOk cfg.oracle ioMax) :
    ∃ s', simLoop cfg
        (phi ioMax (initState (entries.foldl
          (fun w e => workload_add w e.1 e.2.1 e.2.2) []) ncores) + 1)
        (initState (entries.foldl (fun w e => workload_add w e.1 e.2.1 e.2.2) []) ncores) =
          some s' ∧
      all_done s' = true := by
  have hrem : ∀ t ∈ entries.foldl (fun w e => workload_add w e.1 e.2.1 e.2.2) [],
      1 ≤ t.remaining :=
    foldl_workload_rem entries [] (fun t ht => absurd ht (List.not_mem_nil t))
      (fun e he => (hwf e he).2)
  have hinv := initState_inv _ ncores hrem
  have hc : 1 ≤ (initState (entries.foldl
      (fun w e => workload_add w e.1 e.2.1 e.2.2) []) ncores).cores.length := by
    show 1 ≤ (List.replicate ncores (none : Option Thread)).length
    rw [List.length_replicate]
    exact hn
  exact simLoop_terminates ioMax cfg hOK _ _ hinv hc (Nat.lt_succ_self _)

theorem simulation_terminates_witness :
    ∃ s', simLoop (quietCfg Policy.srtcf)
        (phi 0 (initState ([((1 : Int), (0 : Int), (5 : Int))].foldl
          (fun w e => workload_add w e.1 e.2.1 e.2.2) []) 1) + 1)
        (initState ([((1 : Int), (0 : Int), (5 : Int))].foldl
          (fun w e => workload_add w e.1 e.2.1 e.2.2) []) 1) = some s' ∧
      all_done s' = true :=
  simulation_terminates (quietCfg Policy.srtcf) 0 [((1 : Int), (0 : Int), (5 : Int))] 1
    (by decide) (by decide) (fun now i d hd => by simp [quietCfg] at hd)

end SchedSim
